import Mathlib

set_option maxRecDepth 100000

/-!
Verification of the tagged-header codec, the file-index projection and the
SCPIO stream codec of the go-rpm library, as a shallow embedding in Lean.

Bytes are modelled as natural numbers (values < 256 wherever the encoder
produces them); byte streams are `List Nat`.  Go's fixed-width unsigned
arithmetic is modelled with explicit `% 2^w` reductions at the places where
the Go source performs a conversion or a wrapping operation.  Fallible
operations return `Except`.
-/

namespace Rpm

/-- 2^16, the modulus of Go's uint16. -/
def M16 : Nat := 65536
/-- 2^32, the modulus of Go's uint32. -/
def M32 : Nat := 4294967296
/-- 2^64, the modulus of Go's uint64. -/
def M64 : Nat := 18446744073709551616

/-- Big-endian encoding of a uint16 value, as produced by encoding/binary. -/
def be16 (v : Nat) : List Nat := [v / 256 % 256, v % 256]

/-- Big-endian encoding of a uint32 value. -/
def be32 (v : Nat) : List Nat :=
  [v / 16777216 % 256, v / 65536 % 256, v / 256 % 256, v % 256]

/-- Big-endian encoding of a uint64 value. -/
def be64 (v : Nat) : List Nat :=
  [v / 72057594037927936 % 256, v / 281474976710656 % 256,
   v / 1099511627776 % 256, v / 4294967296 % 256,
   v / 16777216 % 256, v / 65536 % 256, v / 256 % 256, v % 256]

/-- Big-endian decoding of a byte list (binary.BigEndian). -/
def beDec (bs : List Nat) : Nat := bs.foldl (fun a b => a * 256 + b) 0

/-- The 16-byte on-disk tag-header entry: id, type, offset, count
(struct `tagHeader` in the source). -/
structure TagH where
  tag : Nat
  typ : Nat
  offset : Nat
  count : Nat
deriving DecidableEq, Repr

/-- `binary.Write` of a `tagHeader`: four big-endian uint32 fields. -/
def encodeTagH (t : TagH) : List Nat :=
  be32 t.tag ++ be32 t.typ ++ be32 t.offset ++ be32 t.count

/-- `binary.Read` of a `tagHeader` from a 16-byte block. -/
def decodeTagH (b : List Nat) : TagH :=
  ⟨beDec (b.take 4), beDec ((b.drop 4).take 4),
   beDec ((b.drop 8).take 4), beDec ((b.drop 12).take 4)⟩

/-- The polymorphic tag payload (`tagData` in the source): one of the five
concrete shapes `tagBytes`, `tagUint16`, `tagUint32`, `tagUint64`,
`tagString`. -/
inductive TagData where
  | bin : List Nat → TagData
  | u16 : List Nat → TagData
  | u32 : List Nat → TagData
  | u64 : List Nat → TagData
  | strs : List (List Nat) → TagData
deriving DecidableEq, Repr

/-- `Len()` of each tag-data shape, exactly as the source computes it:
byte count for blobs, `2/4/8 * count` for integer vectors, and the sum of
`len(s)+1` over the null-terminated strings. -/
def TagData.len : TagData → Nat
  | .bin bs => bs.length
  | .u16 vs => vs.length * 2
  | .u32 vs => vs.length * 4
  | .u64 vs => vs.length * 8
  | .strs ss => ss.foldr (fun (s : List Nat) a => s.length + 1 + a) 0

/-- `WriteTo` of each tag-data shape: big-endian integers, strings as
NUL-terminated runs, blobs verbatim. -/
def TagData.bytesOut : TagData → List Nat
  | .bin bs => bs
  | .u16 vs => (vs.map be16).flatten
  | .u32 vs => (vs.map be32).flatten
  | .u64 vs => (vs.map be64).flatten
  | .strs ss => (ss.map (fun s => s ++ [0])).flatten

/-- One tag: its on-disk header plus its payload. -/
structure Tag where
  th : TagH
  data : TagData
deriving DecidableEq, Repr

/-- Region-marker id HEADER_SIGNATURES.  Modelled from the spec: the numeric
tag-id registry file is not part of src/; the spec reserves two region ids,
whose well-known registry values are 62 and 63. -/
def HEADER_SIGNATURES : Nat := 62

/-- Region-marker id HEADER_IMMUTABLE.  Modelled from the spec (see
`HEADER_SIGNATURES`). -/
def HEADER_IMMUTABLE : Nat := 63

/-- The `Header` value: preamble fields, the running data-end cursor `off`,
the optional region marker (its tag id), and the tag list in insertion
order. -/
structure Header where
  count : Nat := 0
  length : Nat := 0
  off : Nat := 0
  region : Option Nat := none
  tags : List Tag := []
deriving DecidableEq, Repr

/-- `Header.align`: `(hdr.off + n) &^ n` in uint32 arithmetic, i.e. clear
the low bits of the wrapped sum. -/
def goAlign (off n : Nat) : Nat :=
  (off + n) % M32 - (off + n) % M32 % (n + 1)

/-- `Header.Add`: align `off` for the tag's type (masks 1/3/7 for
INT16/INT32/INT64), stamp the offset, advance `off` by the value length
(uint32 addition), append the tag. -/
def Header.add (hdr : Header) (t : TagH) (d : TagData) : Header :=
  let o := if t.typ = 3 then goAlign hdr.off 1
           else if t.typ = 4 then goAlign hdr.off 3
           else if t.typ = 5 then goAlign hdr.off 7
           else hdr.off
  { hdr with
    tags := hdr.tags ++ [⟨{ t with offset := o }, d⟩],
    off := (o + d.len % M32) % M32 }

/-- `Header.AddString`: type STRING (6), count 1.  The id is reduced mod
2^32, modelling the uint32-valued `TagType`. -/
def Header.addString (hdr : Header) (id : Nat) (s : List Nat) : Header :=
  hdr.add ⟨id % M32, 6, 0, 1⟩ (.strs [s])

/-- `Header.AddStringI18N`: type I18NSTRING (9), count 1. -/
def Header.addStringI18N (hdr : Header) (id : Nat) (s : List Nat) : Header :=
  hdr.add ⟨id % M32, 9, 0, 1⟩ (.strs [s])

/-- `Header.AddStringArray`: type STRING_ARRAY (8), count = number of
strings (uint32). -/
def Header.addStringArray (hdr : Header) (id : Nat) (ss : List (List Nat)) : Header :=
  hdr.add ⟨id % M32, 8, 0, ss.length % M32⟩ (.strs ss)

/-- `Header.AddInt16`: type INT16 (3); the arguments are Go uint16 values,
modelled by reducing mod 2^16. -/
def Header.addInt16 (hdr : Header) (id : Nat) (vs : List Nat) : Header :=
  hdr.add ⟨id % M32, 3, 0, vs.length % M32⟩ (.u16 (vs.map (· % M16)))

/-- `Header.AddInt32`: type INT32 (4); uint32 arguments. -/
def Header.addInt32 (hdr : Header) (id : Nat) (vs : List Nat) : Header :=
  hdr.add ⟨id % M32, 4, 0, vs.length % M32⟩ (.u32 (vs.map (· % M32)))

/-- `Header.AddInt64`: type INT64 (5); uint64 arguments. -/
def Header.addInt64 (hdr : Header) (id : Nat) (vs : List Nat) : Header :=
  hdr.add ⟨id % M32, 5, 0, vs.length % M32⟩ (.u64 (vs.map (· % M64)))

/-- `Header.AddBin`: type BIN (7), count = byte length. -/
def Header.addBin (hdr : Header) (id : Nat) (bs : List Nat) : Header :=
  hdr.add ⟨id % M32, 7, 0, bs.length % M32⟩ (.bin bs)

/-- `Header.SetRegion`: record the region-marker id. -/
def Header.setRegion (hdr : Header) (id : Nat) : Header :=
  { hdr with region := some (id % M32) }

/-- One call of the add* API. -/
inductive AddOp where
  | str : Nat → List Nat → AddOp
  | i18n : Nat → List Nat → AddOp
  | strArr : Nat → List (List Nat) → AddOp
  | int16 : Nat → List Nat → AddOp
  | int32 : Nat → List Nat → AddOp
  | int64 : Nat → List Nat → AddOp
  | bin : Nat → List Nat → AddOp
deriving DecidableEq, Repr

/-- Apply one add* call to a header. -/
def Header.applyOp (hdr : Header) : AddOp → Header
  | .str id s => hdr.addString id s
  | .i18n id s => hdr.addStringI18N id s
  | .strArr id ss => hdr.addStringArray id ss
  | .int16 id vs => hdr.addInt16 id vs
  | .int32 id vs => hdr.addInt32 id vs
  | .int64 id vs => hdr.addInt64 id vs
  | .bin id bs => hdr.addBin id bs

/-- Build a header from scratch by a sequence of add* calls, optionally
after `SetRegion`. -/
def buildHeader (reg : Option Nat) (ops : List AddOp) : Header :=
  ops.foldl Header.applyOp { region := reg.map (· % M32) }

/-- The 8-byte header preamble magic `8E AD E8 01 00 00 00 00`. -/
def rpmHeaderMagic : List Nat := [142, 173, 232, 1, 0, 0, 0, 0]

/-- The error kinds of the rpm package. -/
inductive Err where
  | eof
  | unexpectedEOF
  | invalidHeader
  | offsetOOB
  | badAlign
  | tagType
  | tagSize
  | noTags
  | invalidOffset
  | dataLen
deriving DecidableEq, Repr

/-- Two's-complement negation reinterpreted as uint32:
`uint32(-int32(x))` equals `(2^32 - x % 2^32) % 2^32`. -/
def uneg32 (x : Nat) : Nat := (M32 - x % M32) % M32

/-- The region tag's synthetic 16-byte value (`Header.setRegion`): a
tag-header whose Offset is `-(n+1) * 16` in two's complement, where `n` is
the number of real tags. -/
def regionBackPtr (rid n : Nat) : TagH :=
  ⟨rid, 7, uneg32 (16 * (n + 1)), 16⟩

/-- `Header.pad`: zero padding from the running cursor up to a tag offset;
negative padding or more than 8 bytes is `InvalidOffset`. -/
def Header.pad (off cur : Nat) : Except Err (List Nat) :=
  if off < cur then .error .invalidOffset
  else if off - cur > 8 then .error .invalidOffset
  else .ok (List.replicate (off - cur) 0)

/-- Insertion into a list sorted by Offset (the serializer's
`sort.Sort(hdr)` sorts tags by Offset ascending). -/
def insertTag (t : Tag) : List Tag → List Tag
  | [] => [t]
  | u :: us =>
    if u.th.offset < t.th.offset then u :: insertTag t us else t :: u :: us

/-- Sort tags by Offset ascending. -/
def sortTags : List Tag → List Tag
  | [] => []
  | t :: ts => insertTag t (sortTags ts)

/-- The data-region emission loop of `Header.WriteTo`: for each tag in
Offset order, zero padding up to its offset, then its value bytes; returns
the bytes and the running count of data bytes written. -/
def writeData : List Tag → Nat → Except Err (List Nat × Nat)
  | [], cur => .ok ([], cur)
  | t :: ts, cur =>
    (Header.pad t.th.offset cur).bind fun pb =>
      (writeData ts (cur + pb.length + t.data.bytesOut.length)).bind fun r =>
        .ok (pb ++ t.data.bytesOut ++ r.1, r.2)

/-- `Header.WriteTo`: fails `NoTags` on an empty header; emits the 16-byte
preamble (with Count and Length adjusted by one tag / 16 bytes when a
region is present), the region's tag-header first, the real tag-headers in
Offset order, the data region with padding, and the region's 16-byte value
last; fails `DataLen` if the data byte count disagrees with Length. -/
def Header.writeTo (hdr : Header) : Except Err (List Nat) :=
  if hdr.tags = [] then .error .noTags
  else
    let sorted := sortTags hdr.tags
    let thBytes := (sorted.map (fun t => encodeTagH t.th)).flatten
    hdr.region.elim
      ((writeData sorted 0).bind fun r =>
        if r.2 = hdr.off then
          .ok (rpmHeaderMagic ++ be32 (hdr.tags.length % M32) ++ be32 hdr.off
                ++ thBytes ++ r.1)
        else .error .dataLen)
      (fun rid =>
        let preCount := (hdr.tags.length % M32 + 1) % M32
        let preLen := (hdr.off + 16) % M32
        let rTH : TagH := ⟨rid, 7, hdr.off, 16⟩
        let rData := encodeTagH (regionBackPtr rid hdr.tags.length)
        (writeData sorted 0).bind fun r =>
          if 16 + r.2 = preLen then
            .ok (rpmHeaderMagic ++ be32 preCount ++ be32 preLen
                  ++ encodeTagH rTH ++ thBytes ++ r.1 ++ rData)
          else .error .dataLen)

instance {ε α : Type} [DecidableEq ε] [DecidableEq α] : DecidableEq (Except ε α) := fun a b =>
  match a, b with
  | .ok x, .ok y =>
    if h : x = y then .isTrue (by rw [h]) else .isFalse (by simpa using h)
  | .error x, .error y =>
    if h : x = y then .isTrue (by rw [h]) else .isFalse (by simpa using h)
  | .ok _, .error _ => .isFalse (by simp)
  | .error _, .ok _ => .isFalse (by simp)

/-- Reader state: the running byte offset and the remaining input stream. -/
structure RSt where
  off : Nat
  input : List Nat
deriving DecidableEq, Repr

/-- A full read of `n` bytes (`io.ReadFull` / `binary.Read` semantics):
`EOF` when nothing is available, `UnexpectedEOF` on a short read. -/
def readN (n : Nat) (st : RSt) : Except Err (List Nat × RSt) :=
  if st.input.length < n then
    .error (if st.input = [] then .eof else .unexpectedEOF)
  else .ok (st.input.take n, ⟨st.off + n, st.input.drop n⟩)

/-- `Reader.align`: discard zero or more bytes up to the next 8-byte
boundary of the running offset; `BadAlign` if the stream ends first. -/
def rAlign (st : RSt) : Except Err RSt :=
  let n := ((st.off + 7) - (st.off + 7) % 8) - st.off
  if st.input.length < n then .error .badAlign
  else .ok ⟨st.off + n, st.input.drop n⟩

/-- `Reader.header`: read the 16-byte preamble, check the magic, return
(count, length). -/
def readPre (st : RSt) : Except Err (Nat × Nat × RSt) :=
  (readN 16 st).bind fun r =>
    if r.1.take 8 = rpmHeaderMagic then
      .ok (beDec ((r.1.drop 8).take 4), beDec (r.1.drop 12), r.2)
    else .error .invalidHeader

/-- `Reader.tags`: read `n` 16-byte tag-headers, rejecting any whose
Offset exceeds the declared Length (`OffsetOOB`). -/
def readTagHs (n L : Nat) (st : RSt) : Except Err (List TagH × RSt) :=
  match n with
  | 0 => .ok ([], st)
  | n + 1 =>
    (readN 16 st).bind fun r =>
      let th := decodeTagH r.1
      if th.offset > L then .error .offsetOOB
      else (readTagHs n L r.2).bind fun q => .ok (th :: q.1, q.2)

/-- `Reader.tagaligned`: the per-type alignment check applied to the
reader's running stream offset. -/
def tagAligned (typ off : Nat) : Bool :=
  if typ = 3 then off % 2 = 0
  else if typ = 4 then off % 4 = 0
  else if typ = 5 then off % 8 = 0
  else true

/-- `Tag.make`: validate the declared Count against the available data
span (`TagSize`), or reject an unknown type code (`TagType`). -/
def tagMake (typ count dl : Nat) : Except Err Unit :=
  if typ = 3 then (if count > dl / 2 then .error .tagSize else .ok ())
  else if typ = 4 then (if count > dl / 4 then .error .tagSize else .ok ())
  else if typ = 5 then (if count > dl / 8 then .error .tagSize else .ok ())
  else if typ = 6 ∨ typ = 8 ∨ typ = 9 then
    (if count > dl then .error .tagSize else .ok ())
  else if typ = 7 ∨ typ = 1 ∨ typ = 2 then
    (if count > dl then .error .tagSize else .ok ())
  else .error .tagType

/-- Split one NUL-terminated run off the front of a byte list
(`bufio.ReadBytes(0)`); `none` when the stream ends before a NUL. -/
def splitRun : List Nat → Option (List Nat × List Nat)
  | [] => none
  | b :: bs =>
    if b = 0 then some ([], bs)
    else (splitRun bs).map fun p => (b :: p.1, p.2)

/-- Read `n` NUL-terminated runs (`tagString.ReadFrom`). -/
def takeRuns : Nat → List Nat → Option (List (List Nat))
  | 0, _ => some []
  | n + 1, bs =>
    (splitRun bs).bind fun p => (takeRuns n p.2).map (p.1 :: ·)

/-- Decode `count` big-endian integers of `k` bytes each
(`binary.Read` into a length-`count` vector). -/
def decVec (k : Nat) : Nat → List Nat → List Nat
  | 0, _ => []
  | c + 1, bs => beDec (bs.take k) :: decVec k c (bs.drop k)

/-- The EOF kind of a failed full read. -/
def eofKind (st : RSt) : Err := if st.input = [] then .eof else .unexpectedEOF

/-- Advance the reader past `span` consumed bytes. -/
def consume (span : Nat) (st : RSt) : RSt := ⟨st.off + span, st.input.drop span⟩

/-- One tag value read of `Reader.Next`: the value's `ReadFrom` through the
span-limited reader, followed by the discard of up to 7 trailing padding
bytes and the `nr != w` accounting check.  On success exactly `span` bytes
are consumed.  For integer vectors the slack after `count` elements must be
under 8 bytes; for blobs and string vectors any slack inside the span is
discarded (the buffered reader soaks it up). -/
def readValue (typ count span : Nat) (st : RSt) : Except Err (TagData × RSt) :=
  if typ = 3 then
    if st.input.length < count * 2 then .error (eofKind st)
    else if 8 ≤ span - count * 2 then .error .unexpectedEOF
    else if st.input.length < span then .error .unexpectedEOF
    else .ok (.u16 (decVec 2 count st.input), consume span st)
  else if typ = 4 then
    if st.input.length < count * 4 then .error (eofKind st)
    else if 8 ≤ span - count * 4 then .error .unexpectedEOF
    else if st.input.length < span then .error .unexpectedEOF
    else .ok (.u32 (decVec 4 count st.input), consume span st)
  else if typ = 5 then
    if st.input.length < count * 8 then .error (eofKind st)
    else if 8 ≤ span - count * 8 then .error .unexpectedEOF
    else if st.input.length < span then .error .unexpectedEOF
    else .ok (.u64 (decVec 8 count st.input), consume span st)
  else if typ = 6 ∨ typ = 8 ∨ typ = 9 then
    (takeRuns count (st.input.take span)).elim (.error (eofKind st)) fun rs =>
      if st.input.length < span then .error .unexpectedEOF
      else .ok (.strs rs, consume span st)
  else
    if min span st.input.length < count then .error .unexpectedEOF
    else if st.input.length < span then .error .unexpectedEOF
    else .ok (.bin (st.input.take count), consume span st)

/-- The next-offset bound of the per-tag loop: the following tag-header's
Offset, or the declared Length for the last tag. -/
def headTHOffE (ws : List TagH) (L : Nat) : Nat :=
  match ws with
  | [] => L
  | w :: _ => w.offset

/-- The per-tag loop of `Reader.Next` over the Offset-sorted tag-headers:
alignment check (`BadAlign`), span check (`OffsetOOB` when the next offset
does not strictly increase), `Tag.make`, and the value read. -/
def readAllData : List TagH → Nat → RSt → Except Err (List Tag × RSt)
  | [], _, st => .ok ([], st)
  | v :: ws, L, st =>
    if tagAligned v.typ st.off then
      let nt := headTHOffE ws L
      if nt ≤ v.offset then .error .offsetOOB
      else
        (tagMake v.typ v.count (nt - v.offset)).bind fun _ =>
          (readValue v.typ v.count (nt - v.offset) st).bind fun r =>
            (readAllData ws L r.2).bind fun q => .ok (⟨v, r.1⟩ :: q.1, q.2)
    else .error .badAlign

/-- Insertion into a tag-header list sorted by Offset (the parser's
`sort.Sort(hdr)`). -/
def insertTH (t : TagH) : List TagH → List TagH
  | [] => [t]
  | u :: us => if u.offset < t.offset then u :: insertTH t us else t :: u :: us

/-- Sort tag-headers by Offset ascending. -/
def sortTHs : List TagH → List TagH
  | [] => []
  | t :: ts => insertTH t (sortTHs ts)

/-- `Reader.Next` on a fresh reader: align (a no-op at offset 0), read the
preamble, read the tag-headers, return an empty header as-is, otherwise
sort by Offset, read every value, and extract a trailing region-marker tag
(`HEADER_IMMUTABLE` / `HEADER_SIGNATURES`) out of the tag list. -/
def next (input : List Nat) : Except Err Header :=
  (rAlign ⟨0, input⟩).bind fun st0 =>
    (readPre st0).bind fun p =>
      (readTagHs p.1 p.2.1 p.2.2).bind fun q =>
        if q.1 = [] then .ok { count := p.1, length := p.2.1 }
        else
          (readAllData (sortTHs q.1) p.2.1 q.2).bind fun w =>
            let lt := w.1.getLastD ⟨⟨0, 0, 0, 0⟩, .bin []⟩
            if lt.th.tag = HEADER_IMMUTABLE ∨ lt.th.tag = HEADER_SIGNATURES then
              .ok { count := p.1, length := p.2.1, off := lt.th.offset,
                    region := some lt.th.tag, tags := w.1.dropLast }
            else .ok { count := p.1, length := p.2.1, off := p.2.1, tags := w.1 }

/-- `Tag.StringData`: the Go code runs `r, ok := t.data.(*tagString)` and
then evaluates `len(r.data)` before consulting `ok`; when the type
assertion fails `r` is nil and the field selection is a nil-pointer
dereference panic, modelled here as `none`.  On the string shape it
returns `("", false)` for an empty vector and the first string with `ok`
otherwise. -/
def tagStringData : TagData → Option (List Nat × Bool)
  | .strs [] => some ([], false)
  | .strs (s :: _) => some (s, true)
  | _ => none

/-- `Tag.StringArray`: `return r.data, ok` dereferences the nil result of
a failed type assertion, a panic modelled as `none`. -/
def tagStringArray : TagData → Option (List (List Nat) × Bool)
  | .strs ss => some (ss, true)
  | _ => none

/-- `Tag.Int16`: a failed assertion to the slice type yields the nil slice
and `false`; no dereference happens. -/
def tagInt16 : TagData → List Nat × Bool
  | .u16 vs => (vs, true)
  | _ => ([], false)

/-- `Tag.Int32`. -/
def tagInt32 : TagData → List Nat × Bool
  | .u32 vs => (vs, true)
  | _ => ([], false)

/-- `Tag.Int64`. -/
def tagInt64 : TagData → List Nat × Bool
  | .u64 vs => (vs, true)
  | _ => ([], false)

/-- `Tag.Bytes`: matches the `*tagBytes` shape (the `*bytes.Buffer` case
is dead: no constructor stores one), anything else is `(nil, false)`. -/
def tagBytes : TagData → List Nat × Bool
  | .bin bs => (bs, true)
  | _ => ([], false)

/-- The data payload an add* call stores. -/
def opData : AddOp → TagData
  | .str _ s => .strs [s]
  | .i18n _ s => .strs [s]
  | .strArr _ ss => .strs ss
  | .int16 _ vs => .u16 (vs.map (· % M16))
  | .int32 _ vs => .u32 (vs.map (· % M32))
  | .int64 _ vs => .u64 (vs.map (· % M64))
  | .bin _ bs => .bin bs

/-- The tag id an add* call uses. -/
def opId : AddOp → Nat
  | .str id _ => id
  | .i18n id _ => id
  | .strArr id _ => id
  | .int16 id _ => id
  | .int32 id _ => id
  | .int64 id _ => id
  | .bin id _ => id

/-- The value length an add* call contributes. -/
def opLen (op : AddOp) : Nat := (opData op).len

/-- An overestimate of the data-region bytes a sequence of add* calls can
produce: each op costs its value length plus at most 7 bytes of alignment,
padded to 8 for convenience. -/
def opsSize : List AddOp → Nat
  | [] => 0
  | op :: ops => opLen op + 8 + opsSize ops

/-- The strings of an add* call (empty for non-string ops). -/
def opStrs : AddOp → List (List Nat)
  | .str _ s => [s]
  | .i18n _ s => [s]
  | .strArr _ ss => ss
  | _ => []

/-- A round-trippable add* call: a nonempty value whose strings contain no
NUL byte. -/
def OpGood (op : AddOp) : Prop :=
  opLen op ≠ 0 ∧ ∀ s ∈ opStrs op, (0 : Nat) ∉ s

instance : DecidablePred OpGood := fun op => by
  unfold OpGood; infer_instance

/-- The data alignment of a tag type: 2/4/8 for INT16/INT32/INT64, 1
otherwise. -/
def alignSz (typ : Nat) : Nat :=
  if typ = 3 then 2 else if typ = 4 then 4 else if typ = 5 then 8 else 1

/-- Round `o` up to a multiple of `a`. -/
def alignUp (o a : Nat) : Nat := (o + (a - 1)) / a * a

/-- Shape well-formedness of a tag as the add* API creates it: the type
code matches the payload shape, Count counts the payload's elements, and
integer elements fit their width. -/
def TagWF (t : Tag) : Prop :=
  match t.data with
  | .bin bs => t.th.typ = 7 ∧ t.th.count = bs.length
  | .u16 vs => t.th.typ = 3 ∧ t.th.count = vs.length ∧ ∀ v ∈ vs, v < M16
  | .u32 vs => t.th.typ = 4 ∧ t.th.count = vs.length ∧ ∀ v ∈ vs, v < M32
  | .u64 vs => t.th.typ = 5 ∧ t.th.count = vs.length ∧ ∀ v ∈ vs, v < M64
  | .strs ss =>
    (t.th.typ = 6 ∨ t.th.typ = 8 ∨ t.th.typ = 9) ∧ t.th.count = ss.length ∧
      ∀ s ∈ ss, (0 : Nat) ∉ s

/-- The layout discipline of the add* API: starting from data cursor `o`,
each tag sits at the aligned-up offset for its type and the cursor ends at
`e`. -/
inductive Chained : Nat → List Tag → Nat → Prop
  | nil (o : Nat) : Chained o [] o
  | cons {o e : Nat} {t : Tag} {ts : List Tag}
      (ho : t.th.offset = alignUp o (alignSz t.th.typ))
      (hc : Chained (t.th.offset + t.data.len) ts e) :
      Chained o (t :: ts) e

/-- The padding runs `Header.WriteTo` emits before each value, walking the
tags in Offset order from data cursor `o`. -/
def padList (o : Nat) : List Tag → List Nat
  | [] => []
  | t :: ts => (t.th.offset - o) :: padList (t.th.offset + t.data.len) ts

/-- The offset of the first tag-header of a list, with default `e`. -/
def headOffE (ts : List Tag) (e : Nat) : Nat :=
  match ts with
  | [] => e
  | t :: _ => t.th.offset

/-- The data-region bytes as `Reader.Next` consumes them: each tag's value
followed by the zero padding up to the next tag's offset (or up to `e`
for the last tag). -/
def rdBytes (e : Nat) : List Tag → List Nat
  | [] => []
  | t :: ts =>
    t.data.bytesOut ++
      List.replicate (headOffE ts e - (t.th.offset + t.data.len)) 0 ++ rdBytes e ts

/-- The data-region bytes `Header.WriteTo` emits walking the tags in
Offset order from cursor `o`: for each tag the zero padding up to its
offset, then its value bytes. -/
def dataBytes (o : Nat) : List Tag → List Nat
  | [] => []
  | t :: ts =>
    List.replicate (t.th.offset - o) 0 ++ t.data.bytesOut ++
      dataBytes (t.th.offset + t.data.len) ts

/-- All four tag-header fields fit in a uint32. -/
def THin32 (th : TagH) : Prop :=
  th.tag < M32 ∧ th.typ < M32 ∧ th.offset < M32 ∧ th.count < M32

/-- The tag-header an add* call passes to `Header.Add` (offset still 0). -/
def opTH : AddOp → TagH
  | .str id _ => ⟨id % M32, 6, 0, 1⟩
  | .i18n id _ => ⟨id % M32, 9, 0, 1⟩
  | .strArr id ss => ⟨id % M32, 8, 0, ss.length % M32⟩
  | .int16 id vs => ⟨id % M32, 3, 0, vs.length % M32⟩
  | .int32 id vs => ⟨id % M32, 4, 0, vs.length % M32⟩
  | .int64 id vs => ⟨id % M32, 5, 0, vs.length % M32⟩
  | .bin id bs => ⟨id % M32, 7, 0, bs.length % M32⟩

/-- The offset of the first tag-header of a list, 0 when empty. -/
def headTHOff (ths : List TagH) : Nat :=
  match ths with
  | [] => 0
  | t :: _ => t.offset

/-- A file record passed to `FileIndex.Add` (struct `File`).  Field values
carry Go's type bounds; the model stores them as naturals. -/
structure GoFile where
  name : List Char
  user : List Char := []
  group : List Char := []
  mode : Nat := 0
  linkTo : List Char := []
  mtime : Nat := 0
  digest : List Char := []
  noVerify : Nat := 0
  size : Nat := 0
  flags : Nat := 0
deriving DecidableEq, Repr

/-- `filepath.Split`: split after the final slash; the directory part keeps
its trailing slash. -/
def splitPath : List Char → List Char × List Char
  | [] => ([], [])
  | c :: cs =>
    if '/' ∈ cs then
      let p := splitPath cs
      (c :: p.1, p.2)
    else if c = '/' then ([c], cs)
    else ([], c :: cs)

/-- The directory key of a path as used by `prefixMap.index`: the
directory part of `filepath.Split`, or `"/"` when it is empty. -/
def dirOf (f : List Char) : List Char :=
  let d := (splitPath f).1
  if d = [] then ['/'] else d

/-- The columnar file index (struct `FileIndex`).  `prefixMap` is modelled
by the directory-name list `dirS` alone: the map sends a directory to its
position in `dirS`, and `len(p.m) = dirS.length`. -/
structure FileIndex where
  dirS : List (List Char) := []
  dirIndexes : List Nat := []
  name : List (List Char) := []
  user : List (List Char) := []
  group : List (List Char) := []
  mtime : List Nat := []
  mode : List Nat := []
  linkto : List (List Char) := []
  digest : List (List Char) := []
  flags : List Nat := []
  verify : List Nat := []
  size : List Nat := []
  lsize : List Nat := []
  rpmsize : Nat := 0
  rpmlsize : Nat := 0
deriving DecidableEq, Repr

/-- `def(a, b, d)`: substitute `d` when `a = b`. -/
def goDef (a b d : List Char) : List Char := if a = b then d else a

/-- `FileIndex.Add`: split the path, assign the directory its first-seen
index, push every per-file column; sizes go to the 64-bit column only
(`TODO: fallback to 32b when used` in the source).  `verify` stores the
uint32 bitwise NOT of `NoVerify`. -/
def FileIndex.add (fi : FileIndex) (r : GoFile) : FileIndex :=
  let d := dirOf r.name
  let base := (splitPath r.name).2
  let di := if d ∈ fi.dirS then fi.dirS.indexOf d else fi.dirS.length
  { fi with
    dirS := if d ∈ fi.dirS then fi.dirS else fi.dirS ++ [d],
    dirIndexes := fi.dirIndexes ++ [di],
    name := fi.name ++ [base],
    mode := fi.mode ++ [r.mode],
    mtime := fi.mtime ++ [r.mtime],
    verify := fi.verify ++ [4294967295 - r.noVerify % M32],
    linkto := fi.linkto ++ [r.linkTo],
    digest := fi.digest ++ [r.digest],
    flags := fi.flags ++ [r.flags],
    user := fi.user ++ [goDef r.user [] ['r','o','o','t']],
    group := fi.group ++ [goDef r.group [] ['r','o','o','t']],
    lsize := fi.lsize ++ [r.size],
    rpmlsize := fi.rpmlsize + r.size }

/-- Build a file index from a list of files. -/
def indexFiles (files : List GoFile) : FileIndex :=
  files.foldl FileIndex.add {}

/-- Tag-id registry constants used by `FileIndex.Append`.  Modelled from
the spec: the registry file is not under src/; the values are the
well-known RPM tag numbers (only their distinctness matters here). -/
def RPMTAG_DIRNAMES : Nat := 1118
def RPMTAG_BASENAMES : Nat := 1117
def RPMTAG_FILEUSERNAME : Nat := 1039
def RPMTAG_FILEGROUPNAME : Nat := 1040
def RPMTAG_FILELINKTOS : Nat := 1036
def RPMTAG_FILEDIGESTS : Nat := 1035
def RPMTAG_DIRINDEXES : Nat := 1116
def RPMTAG_FILEMTIMES : Nat := 1034
def RPMTAG_FILEMODES : Nat := 1030
def RPMTAG_FILEFLAGS : Nat := 1037
def RPMTAG_FILEVERIFYFLAGS : Nat := 1045
def RPMTAG_FILESIZES : Nat := 1028
def RPMTAG_SIZE : Nat := 1009
def RPMTAG_LONGFILESIZES : Nat := 5008
def RPMTAG_LONGSIZE : Nat := 5009

/-- One tag emission performed by `FileIndex.Append` on its header. -/
inductive FTag where
  | sArr : Nat → List (List Char) → FTag
  | i16 : Nat → List Nat → FTag
  | i32 : Nat → List Nat → FTag
  | i64 : Nat → List Nat → FTag
deriving DecidableEq, Repr

/-- `FileIndex.Append`: the sequence of add* calls it performs.  Nothing is
emitted for an empty index; the size columns use the 64-bit tags whenever
`lsize` is populated (which `Add` always does), and the 32-bit
`FILESIZES`/`SIZE` pair otherwise. -/
def FileIndex.appendTags (fi : FileIndex) : List FTag :=
  if fi.name = [] then []
  else
    [.sArr RPMTAG_DIRNAMES fi.dirS,
     .sArr RPMTAG_BASENAMES fi.name,
     .sArr RPMTAG_FILEUSERNAME fi.user,
     .sArr RPMTAG_FILEGROUPNAME fi.group,
     .sArr RPMTAG_FILELINKTOS fi.linkto,
     .sArr RPMTAG_FILEDIGESTS fi.digest,
     .i32 RPMTAG_DIRINDEXES fi.dirIndexes,
     .i32 RPMTAG_FILEMTIMES fi.mtime,
     .i16 RPMTAG_FILEMODES fi.mode,
     .i32 RPMTAG_FILEFLAGS fi.flags,
     .i32 RPMTAG_FILEVERIFYFLAGS fi.verify] ++
    (if fi.lsize = [] then
       [.i32 RPMTAG_FILESIZES fi.size, .i32 RPMTAG_SIZE [fi.rpmsize]]
     else [.i64 RPMTAG_LONGFILESIZES fi.lsize, .i64 RPMTAG_LONGSIZE [fi.rpmlsize]])

/-- Does an emission list carry a 64-bit size vector (`LONGFILESIZES`)? -/
def emitsLongSizes (l : List FTag) : Bool :=
  l.any fun t => match t with | .i64 id _ => id = RPMTAG_LONGFILESIZES | _ => false

/-- Does an emission list carry a 32-bit size vector (`FILESIZES`)? -/
def emitsSizes (l : List FTag) : Bool :=
  l.any fun t => match t with | .i32 id _ => id = RPMTAG_FILESIZES | _ => false

/-- First-seen deduplication of a list of directory names (the contents of
`prefixMap.s` after a sequence of `index` calls). -/
def seenDirs (ds : List (List Char)) : List (List Char) :=
  ds.foldl (fun s d => if d ∈ s then s else s ++ [d]) []

/-- Success test for an `Except` result. -/
def exIsOk {ε α : Type} : Except ε α → Bool
  | .ok _ => true
  | .error _ => false

/-- Concrete header input: one INT32 tag of count 1 at Offset 2 (misaligned
for its type) with Length 6. -/
def c5input : List Nat :=
  rpmHeaderMagic ++ be32 1 ++ be32 6 ++ encodeTagH ⟨1, 4, 2, 1⟩ ++ [7, 7, 7, 7]

/-- Concrete header input: a 5-byte BIN tag at Offset 0 followed by an
INT32 tag whose Offset equals the declared Length 5. -/
def c6input : List Nat :=
  rpmHeaderMagic ++ be32 2 ++ be32 5 ++ encodeTagH ⟨1, 7, 0, 5⟩ ++
    encodeTagH ⟨2, 4, 5, 0⟩ ++ [9, 9, 9, 9, 9]

/-- Concrete add* sequence: a string tag followed by an empty string-array
tag (a legal API call producing a zero-length value). -/
def c1cexOps : List AddOp := [.str 1 [102, 111, 111], .strArr 2 []]

/-- Concrete add* sequence for the region edge case: a 3-byte BIN tag
followed by an empty string-array tag. -/
def c2cexOps : List AddOp := [.bin 1 [102, 111, 111], .strArr 2 []]

/-- The header built from `c2cexOps` with the HEADER_IMMUTABLE region. -/
def c2cexHdr : Header := buildHeader (some HEADER_IMMUTABLE) c2cexOps

/-- Concrete well-formed header input used to instantiate the alignment
invariant: a 2-byte BIN tag at Offset 0 and an INT32 tag at Offset 4. -/
def c5wInput : List Nat :=
  rpmHeaderMagic ++ be32 2 ++ be32 8 ++ encodeTagH ⟨1, 7, 0, 2⟩ ++
    encodeTagH ⟨2, 4, 4, 1⟩ ++ [5, 6, 0, 0, 1, 2, 3, 4]

/-- The header `Reader.Next` produces from `c5wInput`. -/
def c5wHdr : Header :=
  { count := 2, length := 8, off := 8, region := none,
    tags := [⟨⟨1, 7, 0, 2⟩, .bin [5, 6]⟩, ⟨⟨2, 4, 4, 1⟩, .u32 [16909060]⟩] }

/-- Concrete well-formed header input used to instantiate the offset
bounds: a 2-byte BIN tag at Offset 0 and an INT16 tag at Offset 2. -/
def c6wInput : List Nat :=
  rpmHeaderMagic ++ be32 2 ++ be32 10 ++ encodeTagH ⟨3, 7, 0, 2⟩ ++
    encodeTagH ⟨4, 3, 2, 4⟩ ++ [5, 6, 0, 1, 0, 2, 0, 3, 0, 4]

/-- The header `Reader.Next` produces from `c6wInput`. -/
def c6wHdr : Header :=
  { count := 2, length := 10, off := 10, region := none,
    tags := [⟨⟨3, 7, 0, 2⟩, .bin [5, 6]⟩, ⟨⟨4, 3, 2, 4⟩, .u16 [1, 2, 3, 4]⟩] }

/-- The prefix-dedup scenario file list: /file1, /dir1/file2, /file3,
/dir2/file4, nosep. -/
def c8files : List GoFile :=
  [{ name := "/file1".data }, { name := "/dir1/file2".data },
   { name := "/file3".data }, { name := "/dir2/file4".data },
   { name := "nosep".data }]

end Rpm

namespace Scpio

/-- The error kinds of the scpio package. -/
inductive SErr where
  | eof
  | unexpectedEOF
  | badMagic
  | invalidTrailer
  | hexErr
deriving DecidableEq, Repr

/-- Round up to a 4-byte boundary: `(off + 3) &^ 3`. -/
def align4 (off : Nat) : Nat := (off + 3) - (off + 3) % 4

/-- ASCII bytes of the record magic `"07070X"`. -/
def scpioMagicBytes : List Nat := [48, 55, 48, 55, 48, 88]

/-- ASCII bytes of the newc (trailer) magic `"070701"`. -/
def newcMagicBytes : List Nat := [48, 55, 48, 55, 48, 49]

/-- ASCII bytes of the terminal literal `"TRAILER!!!\x00"`. -/
def trailerLit : List Nat := [84, 82, 65, 73, 76, 69, 82, 33, 33, 33, 0]

/-- Value of an ASCII hex digit (`encoding/hex`), `none` otherwise. -/
def hexVal (c : Nat) : Option Nat :=
  if 48 ≤ c ∧ c ≤ 57 then some (c - 48)
  else if 97 ≤ c ∧ c ≤ 102 then some (c - 87)
  else if 65 ≤ c ∧ c ≤ 70 then some (c - 55)
  else none

/-- `hex.Decode` of 8 digits followed by `binary.BigEndian.Uint32`. -/
def hexDecode (ds : List Nat) : Option Nat :=
  ds.foldl (fun a c => a.bind fun v => (hexVal c).map fun h => v * 16 + h) (some 0)

/-- The hex digits written by `fmt16` (lowercase). -/
def hexDigit (d : Nat) : Nat := if d < 10 then 48 + d else 87 + d

/-- `fmt16`: eight lowercase hex digits of a uint32, most significant
first. -/
def hex8 (v : Nat) : List Nat :=
  [hexDigit (v / 268435456 % 16), hexDigit (v / 16777216 % 16),
   hexDigit (v / 1048576 % 16), hexDigit (v / 65536 % 16),
   hexDigit (v / 4096 % 16), hexDigit (v / 256 % 16),
   hexDigit (v / 16 % 16), hexDigit (v % 16)]

/-- `newHeader`: a magic followed by the 8-hex-digit encodings of the
fields. -/
def newHeader (magic : List Nat) (us : List Nat) : List Nat :=
  magic ++ (us.map hex8).flatten

/-- The writer's trailer bytes: the newc header with field vector
`(0,0,0,0,1,0,0,0,0,0,0,11,0)` followed by `"TRAILER!!!\x00"`. -/
def writerTrailer : List Nat :=
  newHeader newcMagicBytes [0, 0, 0, 0, 1, 0, 0, 0, 0, 0, 0, 11, 0] ++ trailerLit

/-- `Reader.Next(sz)` of the scpio reader, from running offset `off` over
the remaining `input`: account for `sz` payload bytes, discard padding up
to a 4-byte boundary, read a 16-byte record header, and dispatch on its
first six bytes: `"07070X"` decodes an inode, `"070701"` consumes the rest
of the trailer (`8*12 + 11 - 2` more bytes), verifies the terminal
literal, aligns again, and returns inode 0 with no error; anything else is
`BadMagic`.  Returns (inode, new offset, remaining input). -/
def next (sz off : Nat) (input : List Nat) : Except SErr (Nat × Nat × List Nat) :=
  let off1 := off + sz
  let pad := align4 off1 - off1
  if input.length < pad then .error .unexpectedEOF
  else
    let off2 := off1 + pad
    let in2 := input.drop pad
    if in2.length < 16 then .error (if in2 = [] then .eof else .unexpectedEOF)
    else
      let b := in2.take 16
      let off3 := off2 + 16
      let in3 := in2.drop 16
      if b.take 6 = scpioMagicBytes then
        (hexDecode ((b.drop 6).take 8)).elim (.error .hexErr) fun ino =>
          .ok (ino, off3, in3)
      else if b.take 6 = newcMagicBytes then
        if in3.length < 105 then .error (if in3 = [] then .eof else .unexpectedEOF)
        else
          let tb := in3.take 105
          if tb.drop 94 = trailerLit then
            let off4 := off3 + 105
            let in4 := in3.drop 105
            let pad2 := align4 off4 - off4
            if in4.length < pad2 then .error .unexpectedEOF
            else .ok (0, off4 + pad2, in4.drop pad2)
          else .error .invalidTrailer
      else .error .badMagic

/-- A trailer record truncated to the 16-byte record header plus 88 more
bytes (104 total), ending with the terminal literal. -/
def c3shortTrailer : List Nat :=
  (newcMagicBytes ++ List.replicate 87 48 ++ trailerLit).take 104

/-- Bytes 6..16 of the writer's trailer: ten ASCII zero digits. -/
def c3h10 : List Nat := List.replicate 10 48

/-- Bytes 16..121 of the writer's trailer: the tail the reader's
`trailer()` consumes after the initial 16-byte header read. -/
def c3body : List Nat := writerTrailer.drop 16

end Scpio

namespace Rpm

theorem beDec_be16 (v : Nat) : beDec (be16 v) = v % M16 := by
  simp only [beDec, be16, List.foldl, M16]
  omega

theorem beDec_be32 (v : Nat) : beDec (be32 v) = v % M32 := by
  simp only [beDec, be32, List.foldl, M32]
  omega

theorem beDec_be64 (v : Nat) : beDec (be64 v) = v % M64 := by
  simp only [beDec, be64, List.foldl, M64]
  omega

theorem be16_length (v : Nat) : (be16 v).length = 2 := rfl

theorem be32_length (v : Nat) : (be32 v).length = 4 := rfl

theorem be64_length (v : Nat) : (be64 v).length = 8 := rfl

theorem encodeTagH_length (t : TagH) : (encodeTagH t).length = 16 := by
  simp [encodeTagH, be32]

theorem readN_exact (n o : Nat) (A rest : List Nat) (h : A.length = n) :
    readN n ⟨o, A ++ rest⟩ = .ok (A, ⟨o + n, rest⟩) := by
  subst h
  simp [readN, List.take_left, List.drop_left]

theorem readPre_ok (o C L : Nat) (rest : List Nat) :
    readPre ⟨o, rpmHeaderMagic ++ be32 C ++ be32 L ++ rest⟩ =
      .ok (C % M32, L % M32, ⟨o + 16, rest⟩) := by
  have e1 : rpmHeaderMagic ++ be32 C ++ be32 L ++ rest =
      (rpmHeaderMagic ++ be32 C ++ be32 L) ++ rest := by
    simp [List.append_assoc]
  have e2 : (rpmHeaderMagic ++ be32 C ++ be32 L).length = 16 := by
    simp [rpmHeaderMagic, be32]
  rw [readPre, e1, readN_exact 16 o _ rest e2]
  simp only [Except.bind, rpmHeaderMagic, be32, List.cons_append, List.nil_append,
    List.take, List.drop, beDec, List.foldl, eq_self_iff_true, if_true]
  simp only [Except.ok.injEq, Prod.mk.injEq, M32]
  exact ⟨by omega, by omega, trivial⟩

/-- C10: an input whose 16-byte preamble carries the header magic and a
tag count of zero parses successfully into a header with no tags and no
region, for any declared length and any trailing bytes; serializing the
empty header fails with `NoTags`, so parse and serialize are asymmetric at
the empty header. -/
theorem c10_empty_header_roundtrip_asymmetry :
    ∀ (L : Nat) (rest : List Nat),
      next (rpmHeaderMagic ++ be32 0 ++ be32 L ++ rest) =
        .ok { count := 0, length := L % M32, off := 0, region := none, tags := [] } ∧
      Header.writeTo {} = .error .noTags := by
  intro L rest
  refine ⟨?_, rfl⟩
  rw [next]
  have ha : rAlign ⟨0, rpmHeaderMagic ++ be32 0 ++ be32 L ++ rest⟩ =
      .ok ⟨0, rpmHeaderMagic ++ be32 0 ++ be32 L ++ rest⟩ := by
    simp [rAlign]
  rw [ha]
  simp only [Except.bind]
  rw [readPre_ok 0 0 L rest]
  simp [readTagHs]

/-- C7 (code-bug evidence): the string accessors dereference the nil
result of a failed type assertion — `none` here models the nil-pointer
panic — instead of returning `ok = false` as the claim states; the integer
and byte accessors do return the typed-mismatch `false`, and `StringData`
also returns `("", false)` on an empty (correctly shaped) string vector. -/
theorem c7_accessor_mismatch_behavior :
    tagStringData (.u16 [1]) = none ∧
    tagStringArray (.u32 [7]) = none ∧
    tagStringData (.strs []) = some ([], false) ∧
    tagInt16 (.strs [[102]]) = ([], false) ∧
    tagInt32 (.bin [1]) = ([], false) ∧
    tagInt64 (.strs []) = ([], false) ∧
    tagBytes (.u16 []) = ([], false) := by
  decide

/-- C5 (counterexample): a header whose single INT32 tag sits at Offset 2 —
not divisible by 4 — is accepted by `Reader.Next` (the alignment check
tests the running stream offset, which is 32 at that point), contradicting
the claim that such an input fails with BadAlign. -/
theorem c5_counterexample :
    next c5input =
      .ok { count := 1, length := 6, off := 6, region := none,
            tags := [⟨⟨1, 4, 2, 1⟩, .u32 [117901063]⟩] } ∧
    ¬(2 % 4 = 0) := by
  decide

/-- C6 (counterexample): in `c6input` the second tag-header (at byte 32)
has Offset 5 equal to the declared Length 5, so the claim requires the
parse to fail with OffsetOOB; the code fails with BadAlign instead,
because the per-tag alignment check runs before the span check. -/
theorem c6_counterexample :
    next c6input = .error .badAlign ∧
    Err.badAlign ≠ Err.offsetOOB ∧
    decodeTagH ((c6input.drop 32).take 16) = ⟨2, 4, 5, 0⟩ ∧
    (5 : Nat) ≥ 5 := by
  decide

/-- C1 (counterexample): the header built by `AddString` then an empty
`AddStringArray` — a legal add* sequence — serializes successfully, but
parsing the serialized bytes fails with OffsetOOB (the empty value makes
two consecutive offsets equal), so `parse(serialize(H))` does not yield a
header at all. -/
theorem c1_counterexample :
    exIsOk (buildHeader none c1cexOps).writeTo = true ∧
    ((buildHeader none c1cexOps).writeTo.bind next) = .error .offsetOOB := by
  decide

/-- C2 (counterexample): `c2cexHdr` carries a region marker and serializes
successfully, yet its trailing empty-valued tag has the same Offset (3) as
the region, so the region is not strictly the last tag in Offset order. -/
theorem c2_counterexample :
    exIsOk c2cexHdr.writeTo = true ∧
    c2cexHdr.off = 3 ∧
    ¬(∀ t ∈ c2cexHdr.tags, t.th.offset < c2cexHdr.off) := by
  decide

end Rpm

namespace Scpio

/-- C3 (counterexample): a trailer record cut off after the 16-byte record
header plus 88 more bytes (8*12 + 11 bytes total, ending with the terminal
literal, exactly the span the claim describes) makes `Reader.Next` fail
with an unexpected-EOF error instead of completing: the code consumes 105
further bytes (8*12 + 11 - 2), not 88. -/
theorem c3_counterexample :
    next 0 0 c3shortTrailer = .error .unexpectedEOF ∧
    c3shortTrailer.length = 16 + 88 ∧
    c3shortTrailer.drop 93 = trailerLit := by
  decide

end Scpio

namespace Rpm

theorem add_name_len (fi : FileIndex) (r : GoFile) :
    (fi.add r).name.length = fi.name.length + 1 := by
  simp [FileIndex.add]

theorem add_lsize_len (fi : FileIndex) (r : GoFile) :
    (fi.add r).lsize.length = fi.lsize.length + 1 := by
  simp [FileIndex.add]

theorem foldl_add_name_lsize (files : List GoFile) (fi : FileIndex) :
    (files.foldl FileIndex.add fi).name.length = fi.name.length + files.length ∧
    (files.foldl FileIndex.add fi).lsize.length = fi.lsize.length + files.length := by
  induction files generalizing fi with
  | nil => simp
  | cons r rest ih =>
    have h := ih (fi.add r)
    rw [add_name_len, add_lsize_len] at h
    simp only [List.foldl_cons, List.length_cons]
    omega

/-- C4 (amended): for every file index built by one or more `Add` calls,
`Append` emits `LONGFILESIZES`/`LONGSIZE` (the 64-bit form) and never
`FILESIZES`/`SIZE`, regardless of whether the sizes fit in a uint32: `Add`
unconditionally fills the 64-bit column (the 32-bit fallback is an
unimplemented TODO), and the 32-bit branch is taken only when the 64-bit
column is empty, which an `Add` call rules out. -/
theorem c4_amended_always_long_sizes (files : List GoFile) (h : files ≠ []) :
    emitsLongSizes ((indexFiles files).appendTags) = true ∧
    emitsSizes ((indexFiles files).appendTags) = false := by
  have hlen := foldl_add_name_lsize files {}
  have hn : (indexFiles files).name ≠ [] := by
    intro he
    rw [indexFiles] at he
    have := hlen.1
    rw [he] at this
    simp at this
    exact h (List.length_eq_zero.mp this.symm)
  have hl : (indexFiles files).lsize ≠ [] := by
    intro he
    rw [indexFiles] at he
    have := hlen.2
    rw [he] at this
    simp at this
    exact h (List.length_eq_zero.mp this.symm)
  rw [FileIndex.appendTags, if_neg hn, if_neg hl]
  constructor
  · simp [emitsLongSizes, List.any_append]
  · simp [emitsSizes, List.any_append, RPMTAG_FILESIZES, RPMTAG_DIRINDEXES,
      RPMTAG_FILEMTIMES, RPMTAG_FILEFLAGS, RPMTAG_FILEVERIFYFLAGS]

/-- Witness for `c4_amended_always_long_sizes` at a one-file index whose
size fits a uint32. -/
theorem c4_amended_witness :
    (([{ name := ['/', 'a'], size := 1 }] : List GoFile) ≠ []) ∧
    (emitsLongSizes ((indexFiles [{ name := ['/', 'a'], size := 1 }]).appendTags) = true ∧
     emitsSizes ((indexFiles [{ name := ['/', 'a'], size := 1 }]).appendTags) = false) :=
  ⟨by decide, c4_amended_always_long_sizes [{ name := ['/', 'a'], size := 1 }] (by decide)⟩

/-- C4 (counterexample): one file of size 1 — every size fits a uint32 —
yet `Append` emits no `FILESIZES` tag and does emit `LONGFILESIZES`. -/
theorem c4_counterexample :
    (∀ v ∈ (indexFiles [{ name := ['/', 'a'], size := 1 : GoFile }]).lsize, v < M32) ∧
    emitsSizes ((indexFiles [{ name := ['/', 'a'], size := 1 : GoFile }]).appendTags) = false ∧
    emitsLongSizes ((indexFiles [{ name := ['/', 'a'], size := 1 : GoFile }]).appendTags) = true := by
  decide

end Rpm

namespace Rpm

theorem indexOf_cons_beq {α : Type} [BEq α] (a x : α) (l : List α) :
    (x :: l).indexOf a = if x == a then 0 else l.indexOf a + 1 := by
  simp [List.indexOf, List.findIdx_cons, Bool.cond_eq_ite]

theorem indexOf_append_left {α : Type} [BEq α] [LawfulBEq α] (a : α) (l t : List α)
    (h : a ∈ l) : (l ++ t).indexOf a = l.indexOf a := by
  induction l with
  | nil => cases h
  | cons x xs ih =>
    rw [List.cons_append, indexOf_cons_beq, indexOf_cons_beq]
    by_cases hx : x = a
    · simp [hx]
    · have hm : a ∈ xs := by
        rcases List.mem_cons.mp h with h1 | h1
        · exact absurd h1.symm hx
        · exact h1
      have hbx : (x == a) = false := by simp [hx]
      simp [hbx, ih hm]

theorem indexOf_append_right {α : Type} [BEq α] [LawfulBEq α] (a : α) (l : List α)
    (h : a ∉ l) : (l ++ [a]).indexOf a = l.length := by
  induction l with
  | nil => simp [indexOf_cons_beq]
  | cons x xs ih =>
    have hx : x ≠ a := fun he => h (he ▸ List.mem_cons_self x xs)
    have hbx : (x == a) = false := by simp [hx]
    have hm : a ∉ xs := fun hmem => h (List.mem_cons_of_mem _ hmem)
    rw [List.cons_append, indexOf_cons_beq]
    simp [hbx, ih hm]

theorem add_dirS (fi : FileIndex) (r : GoFile) :
    (fi.add r).dirS =
      if dirOf r.name ∈ fi.dirS then fi.dirS else fi.dirS ++ [dirOf r.name] := by
  simp [FileIndex.add]

theorem add_dirIndexes (fi : FileIndex) (r : GoFile) :
    (fi.add r).dirIndexes = fi.dirIndexes ++
      [if dirOf r.name ∈ fi.dirS then fi.dirS.indexOf (dirOf r.name)
       else fi.dirS.length] := by
  simp [FileIndex.add]

theorem dirS_extends (files : List GoFile) (fi : FileIndex) :
    ∃ t, (files.foldl FileIndex.add fi).dirS = fi.dirS ++ t := by
  induction files generalizing fi with
  | nil => exact ⟨[], by simp⟩
  | cons r rest ih =>
    obtain ⟨t, ht⟩ := ih (fi.add r)
    rw [List.foldl_cons, ht, add_dirS]
    by_cases hm : dirOf r.name ∈ fi.dirS
    · exact ⟨t, by rw [if_pos hm]⟩
    · exact ⟨[dirOf r.name] ++ t, by rw [if_neg hm, List.append_assoc]⟩

theorem foldl_add_dirS (files : List GoFile) (fi : FileIndex) :
    (files.foldl FileIndex.add fi).dirS =
      files.foldl (fun s r => if dirOf r.name ∈ s then s else s ++ [dirOf r.name])
        fi.dirS := by
  induction files generalizing fi with
  | nil => rfl
  | cons r rest ih =>
    rw [List.foldl_cons, List.foldl_cons, ih, add_dirS]

theorem foldl_add_dirIndexes (files : List GoFile) (fi : FileIndex) :
    (files.foldl FileIndex.add fi).dirIndexes =
      fi.dirIndexes ++ files.map (fun r =>
        ((files.foldl FileIndex.add fi).dirS).indexOf (dirOf r.name)) := by
  induction files generalizing fi with
  | nil => simp
  | cons r rest ih =>
    simp only [List.foldl_cons, List.map_cons]
    rw [ih (fi.add r), add_dirIndexes]
    obtain ⟨t, ht⟩ := dirS_extends rest (fi.add r)
    have hidx : ((rest.foldl FileIndex.add (fi.add r)).dirS).indexOf (dirOf r.name) =
        (if dirOf r.name ∈ fi.dirS then fi.dirS.indexOf (dirOf r.name)
         else fi.dirS.length) := by
      rw [ht, add_dirS]
      by_cases hm : dirOf r.name ∈ fi.dirS
      · rw [if_pos hm, if_pos hm, indexOf_append_left _ _ _ hm]
      · rw [if_neg hm, if_neg hm,
          indexOf_append_left (dirOf r.name) (fi.dirS ++ [dirOf r.name]) t (by simp),
          indexOf_append_right _ _ hm]
    rw [hidx]
    simp [List.append_assoc]

/-- C8: splitting each added path after its last slash (directory `"/"`
when there is no separator), each distinct directory receives the next
sequential index in first-seen order: the directory-name column is the
first-seen dedup of the split directories and every file's directory index
is the position of its directory in that column; on the concrete scenario
/file1, /dir1/file2, /file3, /dir2/file4, nosep the indexes are
0,1,0,2,0 with directories "/", "/dir1/", "/dir2/". -/
theorem c8_prefix_dedup :
    (∀ files : List GoFile,
      (indexFiles files).dirS = seenDirs (files.map fun r => dirOf r.name) ∧
      (indexFiles files).dirIndexes =
        files.map fun r => ((indexFiles files).dirS).indexOf (dirOf r.name)) ∧
    (indexFiles c8files).dirIndexes = [0, 1, 0, 2, 0] ∧
    (indexFiles c8files).dirS = ["/".data, "/dir1/".data, "/dir2/".data] := by
  refine ⟨fun files => ⟨?_, ?_⟩, by decide, by decide⟩
  · rw [indexFiles, foldl_add_dirS, seenDirs, List.foldl_map]
  · have h := foldl_add_dirIndexes files {}
    simpa [indexFiles] using h

end Rpm

namespace Scpio

/-- C3 (amended): when the SCPIO reader's next operation reads a 16-byte
record header beginning `"070701"`, it consumes exactly 105 more bytes
(8*12 + 11 - 2; the whole trailer record spans 6 + 13*8 + 11 = 121 bytes),
verifies that those bytes end with the literal `"TRAILER!!!\x00"` (failing
with InvalidTrailer otherwise), aligns the running offset to 4 (offset 124
from a fresh stream), and signals end-of-stream as a non-error return. -/
theorem c3_amended_trailer (h10 body p3 rest : List Nat)
    (hh : h10.length = 10) (hb : body.length = 105) (hp : p3.length = 3) :
    next 0 0 (newcMagicBytes ++ h10 ++ body ++ p3 ++ rest) =
      (if body.drop 94 = trailerLit then .ok (0, 124, rest)
       else .error .invalidTrailer) := by
  have hassoc : newcMagicBytes ++ h10 ++ body ++ p3 ++ rest =
      (newcMagicBytes ++ h10) ++ (body ++ (p3 ++ rest)) := by simp
  have hA16 : (newcMagicBytes ++ h10).length = 16 := by simp [newcMagicBytes, hh]
  rw [hassoc]
  simp only [next]
  norm_num [align4]
  have e2 : List.drop 16 (newcMagicBytes ++ (h10 ++ (body ++ (p3 ++ rest)))) =
      body ++ (p3 ++ rest) := by
    rw [← List.append_assoc, List.drop_left' hA16]
  have e1 : List.take 6 (List.take 16 (newcMagicBytes ++ (h10 ++ (body ++ (p3 ++ rest))))) =
      newcMagicBytes := by
    rw [← List.append_assoc, List.take_left' hA16,
      List.take_left' (show newcMagicBytes.length = 6 by simp [newcMagicBytes])]
  have e3 : List.take 105 (body ++ (p3 ++ rest)) = body := List.take_left' hb
  have e4 : List.drop 124 (newcMagicBytes ++ (h10 ++ (body ++ (p3 ++ rest)))) = rest := by
    have hsp : newcMagicBytes ++ (h10 ++ (body ++ (p3 ++ rest))) =
        (newcMagicBytes ++ (h10 ++ (body ++ p3))) ++ rest := by simp
    rw [hsp, List.drop_left' (by simp [newcMagicBytes, hh, hb, hp])]
  have hc1 : ¬ (newcMagicBytes.length +
      (h10.length + (body.length + (p3.length + rest.length))) < 16) := by
    simp only [newcMagicBytes, List.length_cons, List.length_nil, hh, hb, hp]
    omega
  have hc2 : ¬ (newcMagicBytes.length +
      (h10.length + (body.length + (p3.length + rest.length))) - 16 < 105) := by
    simp only [newcMagicBytes, List.length_cons, List.length_nil, hh, hb, hp]
    omega
  have hc3 : ¬ (newcMagicBytes.length +
      (h10.length + (body.length + (p3.length + rest.length))) - 121 < 3) := by
    simp only [newcMagicBytes, List.length_cons, List.length_nil, hh, hb, hp]
    omega
  rw [if_neg hc1, e1, if_neg (by decide), if_pos rfl, if_neg hc2, e2, e3, e4]
  by_cases hT : body.drop 94 = trailerLit
  · rw [if_pos hT, if_pos hT, if_neg hc3]
  · rw [if_neg hT, if_neg hT]

/-- Witness for `c3_amended_trailer` on the writer's own trailer bytes
followed by its three alignment zeros. -/
theorem c3_amended_witness :
    c3h10.length = 10 ∧ c3body.length = 105 ∧ ([0, 0, 0] : List Nat).length = 3 ∧
    next 0 0 (newcMagicBytes ++ c3h10 ++ c3body ++ [0, 0, 0] ++ []) =
      (if c3body.drop 94 = trailerLit then .ok (0, 124, [])
       else .error .invalidTrailer) :=
  ⟨by decide, by decide, by decide,
    c3_amended_trailer c3h10 c3body [0, 0, 0] [] (by decide) (by decide) (by decide)⟩

end Scpio

namespace Rpm

theorem rAlign_zero (input : List Nat) : rAlign ⟨0, input⟩ = .ok ⟨0, input⟩ := by
  simp [rAlign]

theorem readN_ok_state {n : Nat} {st : RSt} {r : List Nat × RSt}
    (h : readN n st = .ok r) : r.2.off = st.off + n := by
  unfold readN at h
  split at h
  · cases h
  · cases h; rfl

theorem readPre_ok_state {st : RSt} {p : Nat × Nat × RSt}
    (h : readPre st = .ok p) : p.2.2.off = st.off + 16 := by
  unfold readPre at h
  rcases hn : readN 16 st with e | r
  · rw [hn] at h; cases h
  · rw [hn] at h
    simp only [Except.bind] at h
    split at h
    · cases h
      exact readN_ok_state hn
    · cases h

theorem readTagHs_ok_state {n L : Nat} {st : RSt} {q : List TagH × RSt}
    (h : readTagHs n L st = .ok q) : q.2.off = st.off + 16 * n := by
  induction n generalizing st q with
  | zero => unfold readTagHs at h; cases h; simp
  | succ m ih =>
    unfold readTagHs at h
    rcases hn : readN 16 st with e | r
    · rw [hn] at h; cases h
    · rw [hn] at h
      simp only [Except.bind] at h
      split at h
      · cases h
      · rcases hq : readTagHs m L r.2 with e | w
        · rw [hq] at h; cases h
        · rw [hq] at h
          simp only [Except.bind] at h
          cases h
          have h1 := readN_ok_state hn
          have h2 := ih hq
          rw [h2, h1]
          ring

theorem readValue_ok_state {typ count span : Nat} {st : RSt} {r : TagData × RSt}
    (h : readValue typ count span st = .ok r) : r.2 = consume span st := by
  unfold readValue at h
  split at h
  · split at h
    · cases h
    · split at h
      · cases h
      · split at h
        · cases h
        · cases h; rfl
  · split at h
    · split at h
      · cases h
      · split at h
        · cases h
        · split at h
          · cases h
          · cases h; rfl
    · split at h
      · split at h
        · cases h
        · split at h
          · cases h
          · split at h
            · cases h
            · cases h; rfl
      · split at h
        · rcases htr : takeRuns count (st.input.take span) with _ | rs
          · rw [htr] at h; simp [Option.elim] at h
          · rw [htr] at h
            simp only [Option.elim] at h
            split at h
            · cases h
            · cases h; rfl
        · split at h
          · cases h
          · split at h
            · cases h
            · cases h; rfl

theorem readAllData_inv (ths : List TagH) (L : Nat) (st : RSt) (tags : List Tag)
    (st' : RSt) (h : readAllData ths L st = .ok (tags, st')) :
    tags.map Tag.th = ths ∧
    List.Chain' (fun a b => a.offset < b.offset) ths ∧
    (∀ th ∈ ths, th.offset < L) ∧
    (∀ th ∈ ths, headTHOff ths ≤ th.offset) ∧
    (∀ th ∈ ths, tagAligned th.typ (st.off + (th.offset - headTHOff ths)) = true) := by
  induction ths generalizing st tags st' with
  | nil =>
    simp only [readAllData] at h
    cases h
    exact ⟨rfl, List.chain'_nil, by simp, by simp, by simp⟩
  | cons v ws ih =>
    simp only [readAllData] at h
    split at h
    case isFalse hal => cases h
    case isTrue hal =>
      split at h
      case isTrue hnt => cases h
      case isFalse hnt =>
        rcases hmk : tagMake v.typ v.count (headTHOffE ws L - v.offset) with e | u
        · rw [hmk] at h; cases h
        · rw [hmk] at h
          simp only [Except.bind] at h
          rcases hrv : readValue v.typ v.count (headTHOffE ws L - v.offset) st with e | r
          · rw [hrv] at h; cases h
          · rw [hrv] at h
            simp only [Except.bind] at h
            rcases hrd : readAllData ws L r.2 with e | q
            · rw [hrd] at h; cases h
            · rw [hrd] at h
              simp only [Except.bind] at h
              cases h
              obtain ⟨ihm, ihc, ihL, ihh, iha⟩ := ih r.2 q.1 q.2 hrd
              have hvlt : v.offset < headTHOffE ws L := Nat.not_le.mp hnt
              have hroff : r.2.off = st.off + (headTHOffE ws L - v.offset) := by
                rw [readValue_ok_state hrv]; rfl
              cases ws with
              | nil =>
                refine ⟨by simp [ihm], by simp, ?_, ?_, ?_⟩
                · intro th hth
                  rcases List.mem_singleton.mp hth with rfl
                  exact hvlt
                · intro th hth
                  rcases List.mem_singleton.mp hth with rfl
                  exact le_refl _
                · intro th hth
                  rcases List.mem_singleton.mp hth with rfl
                  simpa [headTHOff] using hal
              | cons w ws' =>
                have hhw : headTHOffE (w :: ws') L = w.offset := rfl
                have hhws : headTHOff (w :: ws') = w.offset := rfl
                rw [hhw] at hvlt hroff
                refine ⟨by simp [ihm], ?_, ?_, ?_, ?_⟩
                · exact List.chain'_cons.mpr ⟨hvlt, ihc⟩
                · intro th hth
                  rcases List.mem_cons.mp hth with rfl | hth'
                  · exact lt_trans hvlt (ihL w (List.mem_cons_self _ _))
                  · exact ihL th hth'
                · intro th hth
                  rcases List.mem_cons.mp hth with rfl | hth'
                  · exact le_refl _
                  · have := ihh th hth'
                    rw [hhws] at this
                    exact le_trans (le_of_lt hvlt) this
                · intro th hth
                  rcases List.mem_cons.mp hth with rfl | hth'
                  · simpa [headTHOff] using hal
                  · have ha := iha th hth'
                    have hwle : w.offset ≤ th.offset := by
                      have := ihh th hth'
                      rwa [hhws] at this
                    have harg : r.2.off + (th.offset - headTHOff (w :: ws')) =
                        st.off + (th.offset - headTHOff (v :: w :: ws')) := by
                      rw [hhws, hroff]
                      have hv : headTHOff (v :: w :: ws') = v.offset := rfl
                      rw [hv]
                      omega
                    rwa [harg] at ha

theorem head?_of_dropLast_head? {α : Type} {l : List α} {x : α}
    (h : l.dropLast.head? = some x) : l.head? = some x := by
  cases l with
  | nil => simp at h
  | cons a t =>
    cases t with
    | nil => simp at h
    | cons b t' => simpa [List.dropLast_cons₂] using h

theorem next_ok_cases {bs : List Nat} {h : Header} (hok : next bs = .ok h) :
    h.tags = [] ∨
    ∃ (p : Nat × Nat × RSt) (q : List TagH × RSt) (w : List Tag × RSt),
      readPre ⟨0, bs⟩ = .ok p ∧
      readTagHs p.1 p.2.1 p.2.2 = .ok q ∧
      q.1 ≠ [] ∧
      readAllData (sortTHs q.1) p.2.1 q.2 = .ok w ∧
      h.length = p.2.1 ∧
      q.2.off = 16 + 16 * p.1 ∧
      (h.tags = w.1 ∨ h.tags = w.1.dropLast) := by
  unfold next at hok
  rw [rAlign_zero] at hok
  simp only [Except.bind] at hok
  rcases hp : readPre ⟨0, bs⟩ with e | p
  · rw [hp] at hok; cases hok
  · rw [hp] at hok
    simp only [Except.bind] at hok
    rcases hq : readTagHs p.1 p.2.1 p.2.2 with e | q
    · rw [hq] at hok; cases hok
    · rw [hq] at hok
      simp only [Except.bind] at hok
      split at hok
      case isTrue hq1 =>
        cases hok
        exact .inl rfl
      case isFalse hq1 =>
        rcases hw : readAllData (sortTHs q.1) p.2.1 q.2 with e | w
        · rw [hw] at hok; cases hok
        · rw [hw] at hok
          simp only [Except.bind] at hok
          have hoff : q.2.off = 16 + 16 * p.1 := by
            have h1 := readPre_ok_state hp
            have h2 := readTagHs_ok_state hq
            simp only [RSt.off] at h1
            omega
          split at hok
          · cases hok
            exact .inr ⟨p, q, w, rfl, hq, hq1, hw, rfl, hoff, .inr rfl⟩
          · cases hok
            exact .inr ⟨p, q, w, rfl, hq, hq1, hw, rfl, hoff, .inl rfl⟩

/-- C6 (amended): `Reader.Next` never succeeds when some tag's Offset is ≥
the declared Length or two consecutive tags in Offset order have
non-increasing Offsets — every successfully parsed header has strictly
increasing Offsets all below Length; the error on such inputs is OffsetOOB
when the offending span check is the first to fire, but an earlier per-tag
check (alignment, type, size, or a read failure) can preempt it
(`c6_counterexample`). -/
theorem c6_amended_offset_bounds (bs : List Nat) (h : Header)
    (hok : next bs = .ok h) :
    List.Chain' (fun a b => a.th.offset < b.th.offset) h.tags ∧
    ∀ t ∈ h.tags, t.th.offset < h.length := by
  rcases next_ok_cases hok with hemp | ⟨p, q, w, hp, hq, hq1, hw, hlen, hoff, htags⟩
  · rw [hemp]
    exact ⟨List.chain'_nil, by simp⟩
  · obtain ⟨ihm, ihc, ihL, ihh, iha⟩ := readAllData_inv _ _ _ _ _ hw
    have hch : List.Chain' (fun a b => a.th.offset < b.th.offset) w.1 := by
      rw [← ihm] at ihc
      exact (List.chain'_map Tag.th).mp ihc
    have hL' : ∀ t ∈ w.1, t.th.offset < p.2.1 := by
      intro t ht
      exact ihL t.th (ihm ▸ List.mem_map_of_mem Tag.th ht)
    rcases htags with he | he <;> rw [he, hlen]
    · exact ⟨hch, hL'⟩
    · rw [List.dropLast_eq_take]
      exact ⟨hch.take _, fun t ht => hL' t (List.take_subset _ _ ht)⟩

/-- Witness for `c6_amended_offset_bounds` on a concrete two-tag header. -/
theorem c6_amended_witness :
    next c6wInput = .ok c6wHdr ∧
    (List.Chain' (fun a b => a.th.offset < b.th.offset) c6wHdr.tags ∧
     ∀ t ∈ c6wHdr.tags, t.th.offset < c6wHdr.length) :=
  ⟨by decide, c6_amended_offset_bounds c6wInput c6wHdr (by decide)⟩

/-- C5 (amended): the BadAlign check of `Reader.Next` applies to the
reader's running stream offset, which during the data walk equals (mod 8)
the tag's Offset minus the first-in-Offset-order tag's Offset; hence in
every successfully parsed header each INT16/INT32/INT64 tag's Offset
relative to the first tag's Offset is divisible by 2/4/8.  The claim's
absolute-Offset version coincides with this when the first tag's Offset is
0, and fails otherwise (`c5_counterexample`). -/
theorem c5_amended_relative_alignment (bs : List Nat) (h : Header) (t0 : Tag)
    (hok : next bs = .ok h) (h0 : h.tags.head? = some t0) :
    ∀ t ∈ h.tags,
      (t.th.typ = 3 → (t.th.offset - t0.th.offset) % 2 = 0) ∧
      (t.th.typ = 4 → (t.th.offset - t0.th.offset) % 4 = 0) ∧
      (t.th.typ = 5 → (t.th.offset - t0.th.offset) % 8 = 0) := by
  rcases next_ok_cases hok with hemp | ⟨p, q, w, hp, hq, hq1, hw, hlen, hoff, htags⟩
  · intro t ht
    rw [hemp] at ht
    cases ht
  · obtain ⟨ihm, ihc, ihL, ihh, iha⟩ := readAllData_inv _ _ _ _ _ hw
    have hw0 : w.1.head? = some t0 := by
      rcases htags with he | he
      · rw [← he]; exact h0
      · exact head?_of_dropLast_head? (he ▸ h0)
    have hhead : headTHOff (sortTHs q.1) = t0.th.offset := by
      rw [← ihm]
      cases hw1 : w.1 with
      | nil => rw [hw1] at hw0; cases hw0
      | cons a l =>
        rw [hw1] at hw0
        simp at hw0
        rw [hw0]
        rfl
    intro t ht
    have htw : t ∈ w.1 := by
      rcases htags with he | he
      · exact he ▸ ht
      · exact List.dropLast_subset _ (he ▸ ht)
    have hthm : t.th ∈ sortTHs q.1 := ihm ▸ List.mem_map_of_mem Tag.th htw
    have ha := iha t.th hthm
    rw [hhead] at ha
    have h8 : 8 ∣ q.2.off := by
      rw [hoff]
      exact ⟨2 + 2 * p.1, by ring⟩
    refine ⟨?_, ?_, ?_⟩ <;> intro htyp <;> rw [htyp] at ha <;>
      simp [tagAligned] at ha <;> omega

/-- Witness for `c5_amended_relative_alignment` on a concrete two-tag
header with an INT32 tag at Offset 4. -/
theorem c5_amended_witness :
    next c5wInput = .ok c5wHdr ∧
    c5wHdr.tags.head? = some ⟨⟨1, 7, 0, 2⟩, .bin [5, 6]⟩ ∧
    (∀ t ∈ c5wHdr.tags,
      (t.th.typ = 3 → (t.th.offset - 0) % 2 = 0) ∧
      (t.th.typ = 4 → (t.th.offset - 0) % 4 = 0) ∧
      (t.th.typ = 5 → (t.th.offset - 0) % 8 = 0)) :=
  ⟨by decide, by decide,
    c5_amended_relative_alignment c5wInput c5wHdr ⟨⟨1, 7, 0, 2⟩, .bin [5, 6]⟩
      (by decide) (by decide)⟩

end Rpm

namespace Rpm

theorem alignUp_ge (o a : Nat) (ha : 0 < a) : o ≤ alignUp o a := by
  unfold alignUp
  have hd := Nat.div_add_mod (o + (a - 1)) a
  rw [Nat.mul_comm] at hd
  have hm : (o + (a - 1)) % a < a := Nat.mod_lt _ ha
  omega

theorem alignUp_lt (o a : Nat) (ha : 0 < a) : alignUp o a < o + a := by
  unfold alignUp
  have hd := Nat.div_add_mod (o + (a - 1)) a
  rw [Nat.mul_comm] at hd
  have hm : (o + (a - 1)) % a < a := Nat.mod_lt _ ha
  omega

theorem alignUp_dvd (o a : Nat) : a ∣ alignUp o a := by
  unfold alignUp
  exact ⟨(o + (a - 1)) / a, Nat.mul_comm _ _⟩

theorem alignUp_one (o : Nat) : alignUp o 1 = o := by
  simp [alignUp]

theorem alignUp_zero_left (a : Nat) (ha : 0 < a) : alignUp 0 a = 0 := by
  unfold alignUp
  rw [Nat.zero_add, Nat.div_eq_of_lt (by omega), Nat.zero_mul]

theorem alignSz_pos (typ : Nat) : 0 < alignSz typ := by
  unfold alignSz
  split <;> try omega
  split <;> try omega
  split <;> omega

theorem alignSz_le_8 (typ : Nat) : alignSz typ ≤ 8 := by
  unfold alignSz
  split <;> try omega
  split <;> try omega
  split <;> omega

theorem alignSz_dvd_8 (typ : Nat) : alignSz typ ∣ 8 := by
  unfold alignSz
  split
  · exact ⟨4, rfl⟩
  · split
    · exact ⟨2, rfl⟩
    · split
      · exact ⟨1, rfl⟩
      · exact ⟨8, rfl⟩

theorem goAlign_eq (o n : Nat) (h : o + n < M32) :
    goAlign o n = alignUp o (n + 1) := by
  unfold goAlign alignUp
  rw [Nat.mod_eq_of_lt h]
  simp only [Nat.add_sub_cancel]
  have hd := Nat.div_add_mod (o + n) (n + 1)
  rw [Nat.mul_comm] at hd
  have hm : (o + n) % (n + 1) < n + 1 := Nat.mod_lt _ (by omega)
  omega

theorem bytesOut_len (d : TagData) : d.bytesOut.length = d.len := by
  cases d with
  | bin bs => rfl
  | u16 vs =>
    simp only [TagData.bytesOut, TagData.len]
    induction vs with
    | nil => rfl
    | cons v t ih =>
      simp only [List.map_cons, List.flatten_cons, List.length_append, ih,
        List.length_cons, be16_length]
      omega
  | u32 vs =>
    simp only [TagData.bytesOut, TagData.len]
    induction vs with
    | nil => rfl
    | cons v t ih =>
      simp only [List.map_cons, List.flatten_cons, List.length_append, ih,
        List.length_cons, be32_length]
      omega
  | u64 vs =>
    simp only [TagData.bytesOut, TagData.len]
    induction vs with
    | nil => rfl
    | cons v t ih =>
      simp only [List.map_cons, List.flatten_cons, List.length_append, ih,
        List.length_cons, be64_length]
      omega
  | strs ss =>
    simp only [TagData.bytesOut, TagData.len]
    induction ss with
    | nil => rfl
    | cons s t ih =>
      simp only [List.map_cons, List.flatten_cons, List.length_append, ih,
        List.foldr_cons, List.length_cons, List.length_append, List.length_cons,
        List.length_nil]

theorem strs_count_le (ss : List (List Nat)) :
    ss.length ≤ ss.foldr (fun (s : List Nat) a => s.length + 1 + a) 0 := by
  induction ss with
  | nil => simp
  | cons s t ih =>
    simp only [List.foldr_cons, List.length_cons]
    omega

theorem count_le_len {t : Tag} (h : TagWF t) : t.th.count ≤ t.data.len := by
  unfold TagWF at h
  cases hd : t.data with
  | bin bs => rw [hd] at h; simp [TagData.len, h.2]
  | u16 vs => rw [hd] at h; simp [TagData.len, h.2.1]; omega
  | u32 vs => rw [hd] at h; simp [TagData.len, h.2.1]; omega
  | u64 vs => rw [hd] at h; simp [TagData.len, h.2.1]; omega
  | strs ss =>
    rw [hd] at h
    rw [TagData.len, h.2.1]
    exact strs_count_le ss

end Rpm

namespace Rpm

theorem add_spec (hdr : Header) (t : TagH) (d : TagData)
    (h : hdr.off + d.len + 8 ≤ M32) :
    (hdr.add t d).tags = hdr.tags ++
      [⟨{ t with offset := alignUp hdr.off (alignSz t.typ) }, d⟩] ∧
    (hdr.add t d).off = alignUp hdr.off (alignSz t.typ) + d.len ∧
    (hdr.add t d).region = hdr.region := by
  have hM : M32 = 4294967296 := rfl
  have hap : 0 < alignSz t.typ := alignSz_pos t.typ
  have ha8 : alignSz t.typ ≤ 8 := alignSz_le_8 t.typ
  have halt : alignUp hdr.off (alignSz t.typ) < hdr.off + alignSz t.typ :=
    alignUp_lt _ _ hap
  have hlen : d.len % M32 = d.len := Nat.mod_eq_of_lt (by omega)
  have ho : (if t.typ = 3 then goAlign hdr.off 1
      else if t.typ = 4 then goAlign hdr.off 3
      else if t.typ = 5 then goAlign hdr.off 7
      else hdr.off) = alignUp hdr.off (alignSz t.typ) := by
    by_cases h3 : t.typ = 3
    · rw [if_pos h3, goAlign_eq _ _ (by omega), h3]
      norm_num [alignSz]
    · rw [if_neg h3]
      by_cases h4 : t.typ = 4
      · rw [if_pos h4, goAlign_eq _ _ (by omega), h4]
        norm_num [alignSz]
      · rw [if_neg h4]
        by_cases h5 : t.typ = 5
        · rw [if_pos h5, goAlign_eq _ _ (by omega), h5]
          norm_num [alignSz]
        · rw [if_neg h5]
          have : alignSz t.typ = 1 := by simp [alignSz, h3, h4, h5]
          rw [this, alignUp_one]
  refine ⟨?_, ?_, rfl⟩
  · simp only [Header.add, ho]
  · simp only [Header.add, ho, hlen]
    exact Nat.mod_eq_of_lt (by omega)

end Rpm

namespace Rpm

theorem applyOp_eq (hdr : Header) (op : AddOp) :
    Header.applyOp hdr op = hdr.add (opTH op) (opData op) := by
  cases op <;> rfl

theorem opTH_tag_lt (op : AddOp) : (opTH op).tag < M32 := by
  cases op <;> exact Nat.mod_lt _ (by norm_num [M32])

theorem opLen_eq (op : AddOp) : opLen op = (opData op).len := rfl

theorem opTagWF (op : AddOp) (o : Nat) (hsz : opLen op < M32)
    (hnul : ∀ s ∈ opStrs op, (0 : Nat) ∉ s) :
    TagWF ⟨{ opTH op with offset := o }, opData op⟩ := by
  cases op with
  | str id s =>
    exact ⟨Or.inl rfl, rfl, by simpa [opStrs] using hnul⟩
  | i18n id s =>
    exact ⟨Or.inr (Or.inr rfl), rfl, by simpa [opStrs] using hnul⟩
  | strArr id ss =>
    refine ⟨Or.inr (Or.inl rfl), ?_, by simpa [opStrs] using hnul⟩
    have hle : ss.length ≤ opLen (.strArr id ss) := strs_count_le ss
    exact Nat.mod_eq_of_lt (by omega)
  | int16 id vs =>
    refine ⟨rfl, ?_, ?_⟩
    · have hle : vs.length ≤ opLen (.int16 id vs) := by
        simp [opLen, opData, TagData.len]
        omega
      simp only [List.length_map]
      exact Nat.mod_eq_of_lt (by omega)
    · intro v hv
      rcases List.mem_map.mp hv with ⟨w, _, rfl⟩
      exact Nat.mod_lt _ (by norm_num [M16])
  | int32 id vs =>
    refine ⟨rfl, ?_, ?_⟩
    · have hle : vs.length ≤ opLen (.int32 id vs) := by
        simp [opLen, opData, TagData.len]
        omega
      simp only [List.length_map]
      exact Nat.mod_eq_of_lt (by omega)
    · intro v hv
      rcases List.mem_map.mp hv with ⟨w, _, rfl⟩
      exact Nat.mod_lt _ (by norm_num [M32])
  | int64 id vs =>
    refine ⟨rfl, ?_, ?_⟩
    · have hle : vs.length ≤ opLen (.int64 id vs) := by
        simp [opLen, opData, TagData.len]
        omega
      simp only [List.length_map]
      exact Nat.mod_eq_of_lt (by omega)
    · intro v hv
      rcases List.mem_map.mp hv with ⟨w, _, rfl⟩
      exact Nat.mod_lt _ (by norm_num [M64])
  | bin id bs =>
    refine ⟨rfl, ?_⟩
    have : opLen (.bin id bs) = bs.length := rfl
    exact Nat.mod_eq_of_lt (by omega)

theorem chained_append {o m e : Nat} {xs ys : List Tag}
    (h1 : Chained o xs m) (h2 : Chained m ys e) : Chained o (xs ++ ys) e := by
  induction h1 with
  | nil => simpa using h2
  | cons ho hc ih => exact Chained.cons ho (ih h2)

theorem chained_bounds {o e : Nat} {ts : List Tag} (h : Chained o ts e) :
    o ≤ e ∧ ∀ t ∈ ts, o ≤ t.th.offset ∧ t.th.offset + t.data.len ≤ e := by
  induction h with
  | nil => exact ⟨le_refl _, by simp⟩
  | @cons o e t ts ho hc ih =>
    have hge : o ≤ t.th.offset := ho ▸ alignUp_ge _ _ (alignSz_pos _)
    refine ⟨le_trans hge (le_trans (Nat.le_add_right _ _) ih.1), ?_⟩
    intro u hu
    rcases List.mem_cons.mp hu with rfl | hu'
    · exact ⟨hge, ih.1⟩
    · have hu2 := ih.2 u hu'
      exact ⟨le_trans hge (le_trans (Nat.le_add_right _ _) hu2.1), hu2.2⟩

theorem chained_aligned {o e : Nat} {ts : List Tag} (h : Chained o ts e) :
    ∀ t ∈ ts, alignSz t.th.typ ∣ t.th.offset := by
  induction h with
  | nil => simp
  | @cons o e t ts ho hc ih =>
    intro u hu
    rcases List.mem_cons.mp hu with rfl | hu'
    · exact ho ▸ alignUp_dvd _ _
    · exact ih u hu'

theorem chained_padList {o e : Nat} {ts : List Tag} (h : Chained o ts e) :
    ∀ g ∈ padList o ts, g < 8 := by
  induction h with
  | nil => simp [padList]
  | @cons o e t ts ho hc ih =>
    intro g hg
    simp only [padList, List.mem_cons] at hg
    rcases hg with rfl | hg'
    · have h1 := alignUp_lt o (alignSz t.th.typ) (alignSz_pos _)
      have h2 := alignSz_le_8 t.th.typ
      omega
    · exact ih g hg'

theorem chained_chain_le {o e : Nat} {ts : List Tag} (h : Chained o ts e) :
    List.Chain' (fun a b => a.th.offset + a.data.len ≤ b.th.offset) ts := by
  induction h with
  | nil => exact List.chain'_nil
  | @cons o e t ts ho hc ih =>
    refine List.chain'_cons'.mpr ⟨?_, ih⟩
    intro b hb
    cases hc with
    | nil => simp at hb
    | @cons _ _ u us ho' hc' =>
      simp only [List.head?_cons, Option.mem_def, Option.some.injEq] at hb
      subst hb
      exact ho' ▸ alignUp_ge _ _ (alignSz_pos _)

theorem sortTags_id (ts : List Tag)
    (h : List.Chain' (fun a b => a.th.offset ≤ b.th.offset) ts) :
    sortTags ts = ts := by
  induction ts with
  | nil => rfl
  | cons t ts' ih =>
    have hd := List.chain'_cons'.mp h
    rw [sortTags, ih hd.2]
    cases ts' with
    | nil => rfl
    | cons u us =>
      have : t.th.offset ≤ u.th.offset := hd.1 u rfl
      rw [insertTag, if_neg (by omega)]

theorem writeData_ok {o e : Nat} {ts : List Tag} (h : Chained o ts e) :
    writeData ts o = .ok (dataBytes o ts, e) := by
  induction h with
  | nil => rfl
  | @cons o e t ts ho hc ih =>
    rw [writeData]
    have hge : o ≤ t.th.offset := ho ▸ alignUp_ge _ _ (alignSz_pos _)
    have hlt : t.th.offset - o ≤ 8 := by
      have h1 := alignUp_lt o (alignSz t.th.typ) (alignSz_pos _)
      have h2 := alignSz_le_8 t.th.typ
      omega
    have hpad : Header.pad t.th.offset o = .ok (List.replicate (t.th.offset - o) 0) := by
      unfold Header.pad
      rw [if_neg (by omega), if_neg (by omega)]
    rw [hpad]
    simp only [Except.bind]
    have harg : o + (List.replicate (t.th.offset - o) (0 : Nat)).length +
        t.data.bytesOut.length = t.th.offset + t.data.len := by
      rw [List.length_replicate, bytesOut_len]
      omega
    rw [harg, ih]
    simp only [Except.bind]
    rw [dataBytes]

end Rpm

namespace Rpm

theorem opsSize_ge (ops : List AddOp) : 8 * ops.length ≤ opsSize ops := by
  induction ops with
  | nil => simp [opsSize]
  | cons op rest ih =>
    simp only [opsSize, List.length_cons]
    omega

theorem applyOps_spec (ops : List AddOp) (hdr : Header)
    (hb : hdr.off + opsSize ops ≤ 2 ^ 28) :
    ∃ ts,
      (ops.foldl Header.applyOp hdr).tags = hdr.tags ++ ts ∧
      (ops.foldl Header.applyOp hdr).region = hdr.region ∧
      (ops.foldl Header.applyOp hdr).off ≤ hdr.off + opsSize ops ∧
      ts.length = ops.length ∧
      Chained hdr.off ts (ops.foldl Header.applyOp hdr).off ∧
      (∀ t ∈ ts, t.th.tag < M32) ∧
      ((∀ op ∈ ops, ∀ s ∈ opStrs op, (0 : Nat) ∉ s) → ∀ t ∈ ts, TagWF t) ∧
      ((∀ op ∈ ops, opLen op ≠ 0) → ∀ t ∈ ts, t.data.len ≠ 0) := by
  induction ops generalizing hdr with
  | nil =>
    exact ⟨[], by simp, by simp, by simp, rfl, Chained.nil _, by simp, by simp, by simp⟩
  | cons op rest ih =>
    have hM : M32 = 4294967296 := rfl
    have hsz1 : opsSize (op :: rest) = opLen op + 8 + opsSize rest := rfl
    have hlen : (opData op).len = opLen op := rfl
    have hadd := add_spec hdr (opTH op) (opData op) (by omega)
    have hap : 0 < alignSz (opTH op).typ := alignSz_pos _
    have halt : alignUp hdr.off (alignSz (opTH op).typ) <
        hdr.off + alignSz (opTH op).typ := alignUp_lt _ _ hap
    have ha8 : alignSz (opTH op).typ ≤ 8 := alignSz_le_8 _
    have hfold : (op :: rest).foldl Header.applyOp hdr =
        rest.foldl Header.applyOp (hdr.add (opTH op) (opData op)) := by
      rw [List.foldl_cons, applyOp_eq]
    have haddoff : (hdr.add (opTH op) (opData op)).off =
        alignUp hdr.off (alignSz (opTH op).typ) + opLen op := hadd.2.1
    obtain ⟨ts', h1, h2, h3, h4, h5, h6, h7, h8⟩ :=
      ih (hdr.add (opTH op) (opData op)) (by omega)
    refine ⟨⟨{ opTH op with offset := alignUp hdr.off (alignSz (opTH op).typ) },
      opData op⟩ :: ts', ?_, ?_, ?_, ?_, ?_, ?_, ?_, ?_⟩
    · rw [hfold, h1, hadd.1]
      simp
    · rw [hfold, h2, hadd.2.2]
    · rw [hfold]
      omega
    · simp [h4]
    · rw [hfold]
      refine Chained.cons rfl ?_
      have he : (⟨{ opTH op with offset := alignUp hdr.off (alignSz (opTH op).typ) },
          opData op⟩ : Tag).th.offset +
          (⟨{ opTH op with offset := alignUp hdr.off (alignSz (opTH op).typ) },
          opData op⟩ : Tag).data.len = (hdr.add (opTH op) (opData op)).off :=
        haddoff.symm
      rw [he]
      exact h5
    · intro t ht
      rcases List.mem_cons.mp ht with rfl | ht'
      · exact opTH_tag_lt op
      · exact h6 t ht'
    · intro hnul t ht
      rcases List.mem_cons.mp ht with rfl | ht'
      · exact opTagWF op _ (by omega) (hnul op (List.mem_cons_self _ _))
      · exact h7 (fun o2 ho2 => hnul o2 (List.mem_cons_of_mem _ ho2)) t ht'
    · intro hnz t ht
      rcases List.mem_cons.mp ht with rfl | ht'
      · simpa [hlen] using hnz op (List.mem_cons_self _ _)
      · exact h8 (fun o2 ho2 => hnz o2 (List.mem_cons_of_mem _ ho2)) t ht'

end Rpm

namespace Rpm

/-- Evaluation of `Header.writeTo` for a region-less header whose tags are
already in offset order and chain from 0 to `hdr.off`. -/
theorem writeTo_eq_none {hdr : Header} (hreg : hdr.region = none)
    (hne : hdr.tags ≠ []) (hsorted : sortTags hdr.tags = hdr.tags)
    (hch : Chained 0 hdr.tags hdr.off) :
    hdr.writeTo = .ok (rpmHeaderMagic ++ be32 (hdr.tags.length % M32) ++ be32 hdr.off
      ++ (hdr.tags.map (fun t => encodeTagH t.th)).flatten ++ dataBytes 0 hdr.tags) := by
  unfold Header.writeTo
  rw [if_neg hne, hreg]
  simp only [Option.elim]
  rw [hsorted, writeData_ok hch]
  simp only [Except.bind]
  simp

/-- Evaluation of `Header.writeTo` for a header with a region marker whose
tags are already in offset order and chain from 0 to `hdr.off`. -/
theorem writeTo_eq_some {hdr : Header} {rid : Nat} (hreg : hdr.region = some rid)
    (hne : hdr.tags ≠ []) (hsorted : sortTags hdr.tags = hdr.tags)
    (hch : Chained 0 hdr.tags hdr.off) (hoff : hdr.off + 16 < M32) :
    hdr.writeTo = .ok (rpmHeaderMagic ++ be32 ((hdr.tags.length % M32 + 1) % M32)
      ++ be32 (hdr.off + 16)
      ++ encodeTagH ⟨rid, 7, hdr.off, 16⟩
      ++ (hdr.tags.map (fun t => encodeTagH t.th)).flatten
      ++ dataBytes 0 hdr.tags ++ encodeTagH (regionBackPtr rid hdr.tags.length)) := by
  unfold Header.writeTo
  rw [if_neg hne, hreg]
  simp only [Option.elim]
  rw [hsorted, writeData_ok hch]
  simp only [Except.bind]
  rw [Nat.mod_eq_of_lt hoff]
  rw [if_pos (by omega)]

/-- C9: in every header built by the add* API (with or without a region
marker) and successfully serialized by `Header.writeTo`, each tag whose
type is INT16, INT32 or INT64 has an Offset divisible by 2, 4 or 8
respectively (`alignSz` maps the type code to its alignment), every gap
between consecutive values in the data region is strictly smaller than 8
bytes, and the data region serializes exactly to `dataBytes`, in which
each such gap is filled with `List.replicate gap 0`, i.e. zero bytes.
Serialization itself succeeds for any nonempty add* sequence of total
encoded size at most 2^28. -/
theorem c9_alignment_and_padding (reg : Option Nat) (ops : List AddOp) (hne : ops ≠ [])
    (hsz : opsSize ops ≤ 2 ^ 28) :
    (∃ bs, (buildHeader reg ops).writeTo = .ok bs) ∧
    (∀ t ∈ (buildHeader reg ops).tags, alignSz t.th.typ ∣ t.th.offset) ∧
    (∀ g ∈ padList 0 (buildHeader reg ops).tags, g < 8) ∧
    writeData (sortTags (buildHeader reg ops).tags) 0 =
      .ok (dataBytes 0 (buildHeader reg ops).tags, (buildHeader reg ops).off) := by
  obtain ⟨ts, h1, h2, h3, h4, h5, h6, h7, h8⟩ :=
    applyOps_spec ops { region := reg.map (· % M32) } (by simpa using hsz)
  have hbh : buildHeader reg ops =
      ops.foldl Header.applyOp { region := reg.map (· % M32) } := rfl
  rw [hbh]
  have htags : (ops.foldl Header.applyOp { region := reg.map (· % M32) }).tags = ts := by
    simpa using h1
  have hch : Chained 0 ts (ops.foldl Header.applyOp { region := reg.map (· % M32) }).off := by
    simpa using h5
  have hoffle : (ops.foldl Header.applyOp { region := reg.map (· % M32) }).off ≤
      opsSize ops := by simpa using h3
  have htne : ts ≠ [] := by
    intro he
    rw [he] at h4
    exact hne (List.length_eq_zero.mp h4.symm)
  have hchle : List.Chain' (fun a b => a.th.offset ≤ b.th.offset) ts :=
    (chained_chain_le hch).imp fun a b hab => le_trans (Nat.le_add_right _ _) hab
  have hsorted : sortTags ts = ts := sortTags_id ts hchle
  have hch' : Chained 0 (ops.foldl Header.applyOp { region := reg.map (· % M32) }).tags
      (ops.foldl Header.applyOp { region := reg.map (· % M32) }).off := htags ▸ hch
  have htne' : (ops.foldl Header.applyOp { region := reg.map (· % M32) }).tags ≠ [] := by
    rw [htags]; exact htne
  have hsorted' : sortTags (ops.foldl Header.applyOp { region := reg.map (· % M32) }).tags =
      (ops.foldl Header.applyOp { region := reg.map (· % M32) }).tags := by
    rw [htags]; exact hsorted
  have hoff' : (ops.foldl Header.applyOp { region := reg.map (· % M32) }).off + 16 < M32 := by
    have hM : M32 = 4294967296 := rfl
    omega
  refine ⟨?_, ?_, ?_, ?_⟩
  · rcases hr : (ops.foldl Header.applyOp { region := reg.map (· % M32) }).region with _ | rid
    · exact ⟨_, writeTo_eq_none hr htne' hsorted' hch'⟩
    · exact ⟨_, writeTo_eq_some hr htne' hsorted' hch' hoff'⟩
  · rw [htags]
    exact chained_aligned hch
  · rw [htags]
    exact chained_padList hch
  · rw [htags, hsorted]
    exact writeData_ok hch

/-- Witness for C9 at a concrete header: region 63 with an INT16 and an
INT64 tag (the INT64 value forces a nonzero pad). -/
theorem c9_alignment_and_padding_witness :
    (∃ bs, (buildHeader (some 63) [AddOp.int16 100 [5], AddOp.int64 101 [7]]).writeTo
      = .ok bs) ∧
    (∀ t ∈ (buildHeader (some 63) [AddOp.int16 100 [5], AddOp.int64 101 [7]]).tags,
      alignSz t.th.typ ∣ t.th.offset) ∧
    (∀ g ∈ padList 0 (buildHeader (some 63) [AddOp.int16 100 [5], AddOp.int64 101 [7]]).tags,
      g < 8) ∧
    writeData (sortTags (buildHeader (some 63) [AddOp.int16 100 [5],
        AddOp.int64 101 [7]]).tags) 0 =
      .ok (dataBytes 0 (buildHeader (some 63) [AddOp.int16 100 [5],
          AddOp.int64 101 [7]]).tags,
        (buildHeader (some 63) [AddOp.int16 100 [5], AddOp.int64 101 [7]]).off) :=
  c9_alignment_and_padding (some 63) [AddOp.int16 100 [5], AddOp.int64 101 [7]]
    (by simp) (by decide)

end Rpm

namespace Rpm

theorem decodeTagH_encodeTagH (th : TagH) (h : THin32 th) :
    decodeTagH (encodeTagH th) = th := by
  obtain ⟨h1, h2, h3, h4⟩ := h
  have e0 : encodeTagH th =
      be32 th.tag ++ (be32 th.typ ++ (be32 th.offset ++ be32 th.count)) := by
    simp [encodeTagH, List.append_assoc]
  have t1 : (encodeTagH th).take 4 = be32 th.tag := by
    rw [e0]; exact List.take_left' (be32_length _)
  have d4 : (encodeTagH th).drop 4 =
      be32 th.typ ++ (be32 th.offset ++ be32 th.count) := by
    rw [e0]; exact List.drop_left' (be32_length _)
  have t2 : ((encodeTagH th).drop 4).take 4 = be32 th.typ := by
    rw [d4]; exact List.take_left' (be32_length _)
  have d8 : (encodeTagH th).drop 8 = be32 th.offset ++ be32 th.count := by
    rw [show (8 : Nat) = 4 + 4 from rfl, ← List.drop_drop, d4]
    exact List.drop_left' (be32_length _)
  have t3 : ((encodeTagH th).drop 8).take 4 = be32 th.offset := by
    rw [d8]; exact List.take_left' (be32_length _)
  have d12 : (encodeTagH th).drop 12 = be32 th.count := by
    rw [show (12 : Nat) = 8 + 4 from rfl, ← List.drop_drop, d8]
    exact List.drop_left' (be32_length _)
  have t4 : ((encodeTagH th).drop 12).take 4 = be32 th.count := by
    rw [d12]
    simp [be32]
  cases th with
  | mk tag typ offset count =>
    rw [decodeTagH, t1, t2, t3, t4, beDec_be32, beDec_be32, beDec_be32, beDec_be32]
    simp only at h1 h2 h3 h4
    rw [Nat.mod_eq_of_lt h1, Nat.mod_eq_of_lt h2, Nat.mod_eq_of_lt h3,
      Nat.mod_eq_of_lt h4]

theorem readTagHs_exact (ths : List TagH) (L o : Nat) (rest : List Nat)
    (h32 : ∀ th ∈ ths, THin32 th) (hle : ∀ th ∈ ths, th.offset ≤ L) :
    readTagHs ths.length L ⟨o, (ths.map encodeTagH).flatten ++ rest⟩ =
      .ok (ths, ⟨o + 16 * ths.length, rest⟩) := by
  induction ths generalizing o with
  | nil => simp [readTagHs]
  | cons th ths' ih =>
    have hflat : (List.map encodeTagH (th :: ths')).flatten ++ rest =
        encodeTagH th ++ ((ths'.map encodeTagH).flatten ++ rest) := by
      simp
    rw [List.length_cons, readTagHs, hflat,
      readN_exact 16 o _ _ (encodeTagH_length th)]
    simp only [Except.bind]
    rw [decodeTagH_encodeTagH th (h32 th (List.mem_cons_self _ _))]
    rw [if_neg (Nat.not_lt.mpr (hle th (List.mem_cons_self _ _)))]
    rw [ih (o + 16) (fun u hu => h32 u (List.mem_cons_of_mem _ hu))
      (fun u hu => hle u (List.mem_cons_of_mem _ hu))]
    simp only [Except.bind, Except.ok.injEq, Prod.mk.injEq, RSt.mk.injEq, true_and,
      and_true]
    omega

theorem decVec_flatten {k M : Nat} (enc : Nat → List Nat)
    (hlen : ∀ v, (enc v).length = k) (hdec : ∀ v, beDec (enc v) = v % M)
    (vs : List Nat) (rest : List Nat) (h : ∀ v ∈ vs, v < M) :
    decVec k vs.length ((vs.map enc).flatten ++ rest) = vs := by
  induction vs generalizing rest with
  | nil => rfl
  | cons v vs' ih =>
    rw [List.length_cons, decVec]
    have e : (List.map enc (v :: vs')).flatten ++ rest =
        enc v ++ ((vs'.map enc).flatten ++ rest) := by simp
    rw [e, List.take_left' (hlen v), List.drop_left' (hlen v), hdec,
      Nat.mod_eq_of_lt (h v (List.mem_cons_self _ _)),
      ih _ (fun u hu => h u (List.mem_cons_of_mem _ hu))]

theorem splitRun_append (s rest : List Nat) (h : (0 : Nat) ∉ s) :
    splitRun (s ++ 0 :: rest) = some (s, rest) := by
  induction s with
  | nil => simp [splitRun]
  | cons b s' ih =>
    have hb : b ≠ 0 := fun hb => h (by simp [hb])
    rw [List.cons_append, splitRun, if_neg hb,
      ih (fun hm => h (List.mem_cons_of_mem _ hm))]
    rfl

theorem takeRuns_flatten (ss : List (List Nat)) (rest : List Nat)
    (h : ∀ s ∈ ss, (0 : Nat) ∉ s) :
    takeRuns ss.length ((ss.map (fun s => s ++ [0])).flatten ++ rest) = some ss := by
  induction ss generalizing rest with
  | nil => rfl
  | cons s ss' ih =>
    have e : (List.map (fun s => s ++ [0]) (s :: ss')).flatten ++ rest =
        s ++ 0 :: ((ss'.map (fun s => s ++ [0])).flatten ++ rest) := by
      simp
    rw [List.length_cons, takeRuns, e,
      splitRun_append s _ (h s (List.mem_cons_self _ _))]
    simp only [Option.bind]
    rw [ih _ (fun u hu => h u (List.mem_cons_of_mem _ hu))]
    rfl

theorem tagAligned_of_dvd (typ off : Nat) (h : alignSz typ ∣ off) :
    tagAligned typ off = true := by
  rw [tagAligned]
  by_cases h3 : typ = 3
  · subst h3
    obtain ⟨c, rfl⟩ := h
    simp [alignSz, Nat.mul_mod_right]
  · by_cases h4 : typ = 4
    · subst h4
      obtain ⟨c, rfl⟩ := h
      simp [alignSz, Nat.mul_mod_right]
    · by_cases h5 : typ = 5
      · subst h5
        obtain ⟨c, rfl⟩ := h
        simp [alignSz, Nat.mul_mod_right]
      · rw [if_neg h3, if_neg h4, if_neg h5]

theorem dataBytes_chained {o e : Nat} {ts : List Tag} (h : Chained o ts e) :
    dataBytes o ts = List.replicate (headOffE ts e - o) 0 ++ rdBytes e ts := by
  induction h with
  | nil o' => simp [dataBytes, headOffE, rdBytes]
  | @cons o e t ts ho hc ih =>
    rw [dataBytes, rdBytes, ih]
    simp [headOffE, List.append_assoc]

theorem chained_headOffE_zero {e : Nat} {ts : List Tag} (h : Chained 0 ts e) :
    headOffE ts e = 0 := by
  cases h with
  | nil => rfl
  | @cons _ _ t ts ho hc =>
    have := alignUp_zero_left (alignSz t.th.typ) (alignSz_pos _)
    simp [headOffE, ho, this]

theorem dataBytes_append {o m : Nat} {xs : List Tag} (ys : List Tag)
    (h : Chained o xs m) :
    dataBytes o (xs ++ ys) = dataBytes o xs ++ dataBytes m ys := by
  induction h with
  | nil => simp [dataBytes]
  | @cons o e t ts ho hc ih =>
    rw [List.cons_append, dataBytes, dataBytes, ih]
    simp [List.append_assoc]

theorem getLastD_mem {α : Type} (l : List α) (d : α) (h : l ≠ []) :
    l.getLastD d ∈ l := by
  induction l with
  | nil => exact absurd rfl h
  | cons a l' ih =>
    cases l' with
    | nil => simp [List.getLastD]
    | cons b l'' =>
      have := ih (by simp)
      simp only [List.getLastD] at this ⊢
      exact List.mem_cons_of_mem _ this

theorem getLastD_append_singleton {α : Type} (l : List α) (a d : α) :
    (l ++ [a]).getLastD d = a := by
  induction l with
  | nil => rfl
  | cons b l' ih =>
    cases l' with
    | nil => rfl
    | cons c l'' => simp only [List.getLastD] at ih ⊢; exact ih

theorem insertTH_append_end (r : TagH) (ths : List TagH)
    (h : ∀ u ∈ ths, u.offset < r.offset) :
    insertTH r ths = ths ++ [r] := by
  induction ths with
  | nil => rfl
  | cons u us ih =>
    rw [insertTH, if_pos (h u (List.mem_cons_self _ _)),
      ih (fun v hv => h v (List.mem_cons_of_mem _ hv))]
    rfl

theorem sortTHs_id (ths : List TagH)
    (h : List.Chain' (fun a b => a.offset ≤ b.offset) ths) :
    sortTHs ths = ths := by
  induction ths with
  | nil => rfl
  | cons t ts' ih =>
    have hd := List.chain'_cons'.mp h
    rw [sortTHs, ih hd.2]
    cases ts' with
    | nil => rfl
    | cons u us =>
      have : t.offset ≤ u.offset := hd.1 u rfl
      rw [insertTH, if_neg (by omega)]

end Rpm

namespace Rpm

theorem consume_append {span o : Nat} {A rest : List Nat} (h : A.length = span) :
    consume span ⟨o, A ++ rest⟩ = ⟨o + span, rest⟩ := by
  rw [consume]
  simp [List.drop_left' h]

theorem readValue_exact (t : Tag) (span o : Nat) (rest : List Nat)
    (hwf : TagWF t) (hsp : t.data.len ≤ span) (hslack : span - t.data.len < 8) :
    readValue t.th.typ t.th.count span
        ⟨o, (t.data.bytesOut ++ List.replicate (span - t.data.len) 0) ++ rest⟩ =
      .ok (t.data, ⟨o + span, rest⟩) := by
  obtain ⟨th, data⟩ := t
  simp only at hsp hslack
  cases data with
  | u16 vs =>
    obtain ⟨hty, hcnt, hv⟩ := hwf
    simp only at hty hcnt
    simp only [TagData.len] at hsp hslack ⊢
    have hAlen : ((TagData.u16 vs).bytesOut ++
        List.replicate (span - vs.length * 2) 0).length = span := by
      rw [List.length_append, bytesOut_len, List.length_replicate, TagData.len]
      omega
    have hIlen : (((TagData.u16 vs).bytesOut ++ List.replicate (span - vs.length * 2) 0)
        ++ rest).length = span + rest.length := by
      rw [List.length_append, hAlen]
    have hdec : decVec 2 vs.length
        (((TagData.u16 vs).bytesOut ++ List.replicate (span - vs.length * 2) 0) ++ rest) =
        vs := by
      rw [TagData.bytesOut, List.append_assoc]
      exact decVec_flatten be16 be16_length beDec_be16 vs _ hv
    simp only [readValue, hcnt]
    rw [if_pos hty]
    rw [if_neg (by simp only [hIlen]; omega)]
    rw [if_neg (by omega)]
    rw [if_neg (by simp only [hIlen]; omega)]
    simp only [hdec, consume_append hAlen]
  | u32 vs =>
    obtain ⟨hty, hcnt, hv⟩ := hwf
    simp only at hty hcnt
    simp only [TagData.len] at hsp hslack ⊢
    have h3 : ¬(th.typ = 3) := by rw [hty]; decide
    have hAlen : ((TagData.u32 vs).bytesOut ++
        List.replicate (span - vs.length * 4) 0).length = span := by
      rw [List.length_append, bytesOut_len, List.length_replicate, TagData.len]
      omega
    have hIlen : (((TagData.u32 vs).bytesOut ++ List.replicate (span - vs.length * 4) 0)
        ++ rest).length = span + rest.length := by
      rw [List.length_append, hAlen]
    have hdec : decVec 4 vs.length
        (((TagData.u32 vs).bytesOut ++ List.replicate (span - vs.length * 4) 0) ++ rest) =
        vs := by
      rw [TagData.bytesOut, List.append_assoc]
      exact decVec_flatten be32 be32_length beDec_be32 vs _ hv
    simp only [readValue, hcnt]
    rw [if_neg h3, if_pos hty]
    rw [if_neg (by simp only [hIlen]; omega)]
    rw [if_neg (by omega)]
    rw [if_neg (by simp only [hIlen]; omega)]
    simp only [hdec, consume_append hAlen]
  | u64 vs =>
    obtain ⟨hty, hcnt, hv⟩ := hwf
    simp only at hty hcnt
    simp only [TagData.len] at hsp hslack ⊢
    have h3 : ¬(th.typ = 3) := by rw [hty]; decide
    have h4 : ¬(th.typ = 4) := by rw [hty]; decide
    have hAlen : ((TagData.u64 vs).bytesOut ++
        List.replicate (span - vs.length * 8) 0).length = span := by
      rw [List.length_append, bytesOut_len, List.length_replicate, TagData.len]
      omega
    have hIlen : (((TagData.u64 vs).bytesOut ++ List.replicate (span - vs.length * 8) 0)
        ++ rest).length = span + rest.length := by
      rw [List.length_append, hAlen]
    have hdec : decVec 8 vs.length
        (((TagData.u64 vs).bytesOut ++ List.replicate (span - vs.length * 8) 0) ++ rest) =
        vs := by
      rw [TagData.bytesOut, List.append_assoc]
      exact decVec_flatten be64 be64_length beDec_be64 vs _ hv
    simp only [readValue, hcnt]
    rw [if_neg h3, if_neg h4, if_pos hty]
    rw [if_neg (by simp only [hIlen]; omega)]
    rw [if_neg (by omega)]
    rw [if_neg (by simp only [hIlen]; omega)]
    simp only [hdec, consume_append hAlen]
  | strs ss =>
    obtain ⟨hty, hcnt, hnul⟩ := hwf
    simp only at hty hcnt
    simp only [TagData.len] at hsp hslack ⊢
    have h3 : ¬(th.typ = 3) := by rcases hty with h | h | h <;> rw [h] <;> decide
    have h4 : ¬(th.typ = 4) := by rcases hty with h | h | h <;> rw [h] <;> decide
    have h5 : ¬(th.typ = 5) := by rcases hty with h | h | h <;> rw [h] <;> decide
    have hAlen : ((TagData.strs ss).bytesOut ++
        List.replicate (span - ss.foldr (fun (s : List Nat) a => s.length + 1 + a) 0) 0).length =
        span := by
      rw [List.length_append, bytesOut_len, List.length_replicate, TagData.len]
      omega
    have hIlen : (((TagData.strs ss).bytesOut ++
        List.replicate (span - ss.foldr (fun (s : List Nat) a => s.length + 1 + a) 0) 0)
        ++ rest).length = span + rest.length := by
      rw [List.length_append, hAlen]
    have hruns : takeRuns ss.length
        ((TagData.strs ss).bytesOut ++
          List.replicate (span - ss.foldr (fun (s : List Nat) a => s.length + 1 + a) 0) 0) =
        some ss := by
      rw [TagData.bytesOut]
      exact takeRuns_flatten ss _ hnul
    simp only [readValue, hcnt]
    rw [if_neg h3, if_neg h4, if_neg h5, if_pos hty]
    rw [List.take_left' hAlen, hruns]
    simp only [Option.elim]
    rw [if_neg (by simp only [hIlen]; omega)]
    simp only [consume_append hAlen]
  | bin bs =>
    obtain ⟨hty, hcnt⟩ := hwf
    simp only at hty hcnt
    simp only [TagData.len] at hsp hslack ⊢
    have h3 : ¬(th.typ = 3) := by rw [hty]; decide
    have h4 : ¬(th.typ = 4) := by rw [hty]; decide
    have h5 : ¬(th.typ = 5) := by rw [hty]; decide
    have hor : ¬(th.typ = 6 ∨ th.typ = 8 ∨ th.typ = 9) := by rw [hty]; decide
    have hAlen : ((TagData.bin bs).bytesOut ++
        List.replicate (span - bs.length) 0).length = span := by
      rw [List.length_append, bytesOut_len, List.length_replicate, TagData.len]
      omega
    have hIlen : (((TagData.bin bs).bytesOut ++ List.replicate (span - bs.length) 0)
        ++ rest).length = span + rest.length := by
      rw [List.length_append, hAlen]
    have htk : (((TagData.bin bs).bytesOut ++ List.replicate (span - bs.length) 0)
        ++ rest).take bs.length = bs := by
      rw [TagData.bytesOut, List.append_assoc]
      exact List.take_left' rfl
    simp only [readValue, hcnt]
    rw [if_neg h3, if_neg h4, if_neg h5, if_neg hor]
    rw [if_neg (by simp only [hIlen, Nat.min_def]; split <;> omega)]
    rw [if_neg (by simp only [hIlen]; omega)]
    simp only [htk, consume_append hAlen]

end Rpm

namespace Rpm

theorem tagMake_ok (t : Tag) (dl : Nat) (hwf : TagWF t) (hdl : t.data.len ≤ dl) :
    tagMake t.th.typ t.th.count dl = .ok () := by
  obtain ⟨th, data⟩ := t
  simp only at hdl
  cases data with
  | u16 vs =>
    obtain ⟨hty, hcnt, _⟩ := hwf
    simp only at hty hcnt
    simp only [TagData.len] at hdl
    rw [tagMake, if_pos hty, hcnt, if_neg (by omega)]
  | u32 vs =>
    obtain ⟨hty, hcnt, _⟩ := hwf
    simp only at hty hcnt
    simp only [TagData.len] at hdl
    have h3 : ¬(th.typ = 3) := by rw [hty]; decide
    rw [tagMake, if_neg h3, if_pos hty, hcnt, if_neg (by omega)]
  | u64 vs =>
    obtain ⟨hty, hcnt, _⟩ := hwf
    simp only at hty hcnt
    simp only [TagData.len] at hdl
    have h3 : ¬(th.typ = 3) := by rw [hty]; decide
    have h4 : ¬(th.typ = 4) := by rw [hty]; decide
    rw [tagMake, if_neg h3, if_neg h4, if_pos hty, hcnt, if_neg (by omega)]
  | strs ss =>
    obtain ⟨hty, hcnt, _⟩ := hwf
    simp only at hty hcnt
    simp only [TagData.len] at hdl
    have h3 : ¬(th.typ = 3) := by rcases hty with h | h | h <;> rw [h] <;> decide
    have h4 : ¬(th.typ = 4) := by rcases hty with h | h | h <;> rw [h] <;> decide
    have h5 : ¬(th.typ = 5) := by rcases hty with h | h | h <;> rw [h] <;> decide
    have hcle := strs_count_le ss
    rw [tagMake, if_neg h3, if_neg h4, if_neg h5, if_pos hty, hcnt,
      if_neg (by omega)]
  | bin bs =>
    obtain ⟨hty, hcnt⟩ := hwf
    simp only at hty hcnt
    simp only [TagData.len] at hdl
    have h3 : ¬(th.typ = 3) := by rw [hty]; decide
    have h4 : ¬(th.typ = 4) := by rw [hty]; decide
    have h5 : ¬(th.typ = 5) := by rw [hty]; decide
    have hor : ¬(th.typ = 6 ∨ th.typ = 8 ∨ th.typ = 9) := by rw [hty]; decide
    have hor2 : th.typ = 7 ∨ th.typ = 1 ∨ th.typ = 2 := Or.inl hty
    rw [tagMake, if_neg h3, if_neg h4, if_neg h5, if_neg hor, if_pos hor2, hcnt,
      if_neg (by omega)]

theorem headTHOffE_map (ts : List Tag) (e : Nat) :
    headTHOffE (ts.map Tag.th) e = headOffE ts e := by
  cases ts <;> rfl

theorem headOffE_cons (t : Tag) (ts : List Tag) (e : Nat) :
    headOffE (t :: ts) e = t.th.offset := rfl

theorem readAllData_exact {o e : Nat} {ts : List Tag} (hch : Chained o ts e)
    (base : Nat) (rest : List Nat) (h8 : base % 8 = 0)
    (hwf : ∀ t ∈ ts, TagWF t) (hnz : ∀ t ∈ ts, t.data.len ≠ 0) :
    readAllData (ts.map Tag.th) e ⟨base + headOffE ts e, rdBytes e ts ++ rest⟩ =
      .ok (ts, ⟨base + e, rest⟩) := by
  revert hwf hnz
  induction hch with
  | nil o' =>
    intro hwf hnz
    simp [readAllData, rdBytes, headOffE]
  | @cons o e t ts ho hc ih =>
    intro hwf hnz
    have hwft : TagWF t := hwf t (List.mem_cons_self _ _)
    have hlent : t.data.len ≠ 0 := hnz t (List.mem_cons_self _ _)
    have hnt : t.th.offset + t.data.len ≤ headOffE ts e := by
      cases hc with
      | nil => simp [headOffE]
      | @cons _ _ t' ts' ho' hc' =>
        simp only [headOffE]
        exact ho' ▸ alignUp_ge _ _ (alignSz_pos _)
    have hslk : headOffE ts e - (t.th.offset + t.data.len) < 8 := by
      cases hc with
      | nil => simp [headOffE]
      | @cons _ _ t' ts' ho' hc' =>
        simp only [headOffE]
        have h1 := alignUp_lt (t.th.offset + t.data.len) (alignSz t'.th.typ)
          (alignSz_pos _)
        have h2 := alignSz_le_8 t'.th.typ
        omega
    have halign : tagAligned t.th.typ (base + t.th.offset) = true := by
      refine tagAligned_of_dvd _ _ (Nat.dvd_add ?_ ?_)
      · exact dvd_trans (alignSz_dvd_8 t.th.typ) (Nat.dvd_of_mod_eq_zero h8)
      · exact ho ▸ alignUp_dvd _ _
    simp only [List.map_cons, rdBytes, headOffE_cons, readAllData, headTHOffE_map]
    rw [if_pos halign]
    rw [if_neg (show ¬(headOffE ts e ≤ t.th.offset) by omega)]
    rw [tagMake_ok t _ hwft (by omega)]
    simp only [Except.bind]
    rw [List.append_assoc]
    have hgap : headOffE ts e - (t.th.offset + t.data.len) =
        headOffE ts e - t.th.offset - t.data.len := by omega
    rw [hgap]
    have hrv := readValue_exact t (headOffE ts e - t.th.offset) (base + t.th.offset)
      (rdBytes e ts ++ rest) hwft (by omega) (by omega)
    rw [hrv]
    simp only [Except.bind]
    have hoff2 : base + t.th.offset + (headOffE ts e - t.th.offset) =
        base + headOffE ts e := by omega
    rw [hoff2]
    rw [ih (fun u hu => hwf u (List.mem_cons_of_mem _ hu))
      (fun u hu => hnz u (List.mem_cons_of_mem _ hu))]

end Rpm

namespace Rpm

theorem next_parses_flat (tags : List Tag) (e : Nat)
    (hch : Chained 0 tags e) (hne : tags ≠ [])
    (hwf : ∀ t ∈ tags, TagWF t) (hnz : ∀ t ∈ tags, t.data.len ≠ 0)
    (h32 : ∀ t ∈ tags, THin32 t.th) (hlen : tags.length < M32) (he : e < M32)
    (hid : ¬((tags.getLastD ⟨⟨0, 0, 0, 0⟩, .bin []⟩).th.tag = HEADER_IMMUTABLE ∨
      (tags.getLastD ⟨⟨0, 0, 0, 0⟩, .bin []⟩).th.tag = HEADER_SIGNATURES)) :
    next (rpmHeaderMagic ++ be32 (tags.length % M32) ++ be32 e
        ++ (tags.map (fun t => encodeTagH t.th)).flatten ++ dataBytes 0 tags) =
      .ok { count := tags.length, length := e, off := e, region := none,
            tags := tags } := by
  have hml : be32 (tags.length % M32) = be32 tags.length := by
    rw [Nat.mod_eq_of_lt hlen]
  rw [next, rAlign_zero]
  simp only [Except.bind]
  rw [hml, List.append_assoc (rpmHeaderMagic ++ be32 tags.length ++ be32 e)]
  rw [readPre_ok 0 tags.length e _]
  simp only [Except.bind]
  rw [Nat.mod_eq_of_lt hlen, Nat.mod_eq_of_lt he]
  have hthb : (tags.map (fun t => encodeTagH t.th)).flatten =
      ((tags.map Tag.th).map encodeTagH).flatten := by
    rw [List.map_map]
    rfl
  have hoffle : ∀ th ∈ tags.map Tag.th, th.offset ≤ e := by
    intro th hth
    obtain ⟨t, ht, rfl⟩ := List.mem_map.mp hth
    have hb := (chained_bounds hch).2 t ht
    have := hnz t ht
    omega
  have h32' : ∀ th ∈ tags.map Tag.th, THin32 th := by
    intro th hth
    obtain ⟨t, ht, rfl⟩ := List.mem_map.mp hth
    exact h32 t ht
  have hrt := readTagHs_exact (tags.map Tag.th) e 16 (dataBytes 0 tags) h32' hoffle
  rw [List.length_map] at hrt
  rw [hthb, hrt]
  simp only [Except.bind]
  rw [if_neg (by simp [hne])]
  have hsorted : sortTHs (tags.map Tag.th) = tags.map Tag.th := by
    refine sortTHs_id _ ?_
    refine (List.chain'_map Tag.th).mpr ?_
    exact (chained_chain_le hch).imp fun a b hab => le_trans (Nat.le_add_right _ _) hab
  rw [hsorted]
  have hbase : (16 + 16 * tags.length) % 8 = 0 := by omega
  have hdb : dataBytes 0 tags = rdBytes e tags ++ [] := by
    rw [dataBytes_chained hch, chained_headOffE_zero hch, List.append_nil]
    simp
  have hrd := readAllData_exact hch (16 + 16 * tags.length) [] hbase hwf hnz
  rw [chained_headOffE_zero hch, Nat.add_zero] at hrd
  rw [hdb]
  rw [hrd]
  simp only []
  rw [if_neg hid]

end Rpm

namespace Rpm

theorem opTH_tag (op : AddOp) : (opTH op).tag = opId op % M32 := by
  cases op <;> rfl

theorem applyOps_tag_ids (ops : List AddOp) (hdr : Header) :
    ∀ t ∈ (ops.foldl Header.applyOp hdr).tags,
      t ∈ hdr.tags ∨ ∃ op ∈ ops, t.th.tag = opId op % M32 := by
  induction ops generalizing hdr with
  | nil => intro t ht; exact Or.inl ht
  | cons op rest ih =>
    intro t ht
    rw [List.foldl_cons] at ht
    rcases ih (hdr.applyOp op) t ht with hmem | ⟨op2, hop2, heq⟩
    · rw [applyOp_eq] at hmem
      simp only [Header.add, List.mem_append, List.mem_singleton] at hmem
      rcases hmem with h | rfl
      · exact Or.inl h
      · refine Or.inr ⟨op, List.mem_cons_self _ _, ?_⟩
        simp [opTH_tag]
    · exact Or.inr ⟨op2, List.mem_cons_of_mem _ hop2, heq⟩

theorem tagWF_typ_le {t : Tag} (h : TagWF t) : t.th.typ ≤ 9 := by
  obtain ⟨th, data⟩ := t
  cases data with
  | bin bs => simp only [TagWF] at h; show th.typ ≤ 9; omega
  | u16 vs => simp only [TagWF] at h; show th.typ ≤ 9; omega
  | u32 vs => simp only [TagWF] at h; show th.typ ≤ 9; omega
  | u64 vs => simp only [TagWF] at h; show th.typ ≤ 9; omega
  | strs ss =>
    simp only [TagWF] at h
    show th.typ ≤ 9
    rcases h.1 with h1 | h1 | h1 <;> omega

end Rpm

namespace Rpm

/-- C1 (amended): for every nonempty region-less header built by the add*
API in which every call stores a nonempty value whose strings carry no NUL
byte, no tag id reduces to a region-marker id (62/63) mod 2^32, and the
total encoded size is at most 2^28, `Header.writeTo` succeeds and
`Reader.Next` on the produced bytes returns a header with exactly the same
tag list - same ids, types, offsets, counts and byte-equal values in the
same offset order - with count, length and data-end cursor matching the
builder state. -/
theorem c1_amended_roundtrip (ops : List AddOp) (hne : ops ≠ [])
    (hgood : ∀ op ∈ ops, OpGood op)
    (hid : ∀ op ∈ ops, opId op % M32 ≠ HEADER_SIGNATURES ∧
      opId op % M32 ≠ HEADER_IMMUTABLE)
    (hsz : opsSize ops ≤ 2 ^ 28) :
    ∃ bs, (buildHeader none ops).writeTo = .ok bs ∧
      next bs = .ok { count := (buildHeader none ops).tags.length,
                      length := (buildHeader none ops).off,
                      off := (buildHeader none ops).off,
                      region := none,
                      tags := (buildHeader none ops).tags } := by
  obtain ⟨ts, h1, h2, h3, h4, h5, h6, h7, h8⟩ :=
    applyOps_spec ops { region := none } (by simpa using hsz)
  have hbh : buildHeader none ops =
      ops.foldl Header.applyOp ({ region := none } : Header) := rfl
  rw [hbh]
  have htags : (ops.foldl Header.applyOp ({ region := none } : Header)).tags = ts := by
    simpa using h1
  have hch : Chained 0 ts (ops.foldl Header.applyOp ({ region := none } : Header)).off := by
    simpa using h5
  have hoffle : (ops.foldl Header.applyOp ({ region := none } : Header)).off ≤
      opsSize ops := by simpa using h3
  have htne : ts ≠ [] := by
    intro he
    rw [he] at h4
    exact hne (List.length_eq_zero.mp h4.symm)
  have hchle : List.Chain' (fun a b => a.th.offset ≤ b.th.offset) ts :=
    (chained_chain_le hch).imp fun a b hab => le_trans (Nat.le_add_right _ _) hab
  have hsorted : sortTags ts = ts := sortTags_id ts hchle
  have hch' : Chained 0 (ops.foldl Header.applyOp ({ region := none } : Header)).tags
      (ops.foldl Header.applyOp ({ region := none } : Header)).off := htags ▸ hch
  have htne' : (ops.foldl Header.applyOp ({ region := none } : Header)).tags ≠ [] := by
    rw [htags]; exact htne
  have hsorted' :
      sortTags (ops.foldl Header.applyOp ({ region := none } : Header)).tags =
      (ops.foldl Header.applyOp ({ region := none } : Header)).tags := by
    rw [htags]; exact hsorted
  have hreg : (ops.foldl Header.applyOp ({ region := none } : Header)).region = none := by
    simpa using h2
  have hwfts : ∀ t ∈ ts, TagWF t := h7 (fun op hop => (hgood op hop).2)
  have hnzts : ∀ t ∈ ts, t.data.len ≠ 0 := h8 (fun op hop => (hgood op hop).1)
  have hM : M32 = 4294967296 := rfl
  have h32 : ∀ t ∈ ts, THin32 t.th := by
    intro t ht
    have hb := (chained_bounds hch).2 t ht
    have hty := tagWF_typ_le (hwfts t ht)
    have hcl := count_le_len (hwfts t ht)
    exact ⟨h6 t ht, by omega, by omega, by omega⟩
  have hlenlt : ts.length < M32 := by
    have := opsSize_ge ops
    omega
  have helt : (ops.foldl Header.applyOp ({ region := none } : Header)).off < M32 := by
    omega
  have hidlast :
      ¬((ts.getLastD ⟨⟨0, 0, 0, 0⟩, .bin []⟩).th.tag = HEADER_IMMUTABLE ∨
        (ts.getLastD ⟨⟨0, 0, 0, 0⟩, .bin []⟩).th.tag = HEADER_SIGNATURES) := by
    have hmem : ts.getLastD ⟨⟨0, 0, 0, 0⟩, .bin []⟩ ∈ ts := getLastD_mem ts _ htne
    have hmem' : ts.getLastD ⟨⟨0, 0, 0, 0⟩, .bin []⟩ ∈
        (ops.foldl Header.applyOp ({ region := none } : Header)).tags := by
      rw [htags]; exact hmem
    rcases applyOps_tag_ids ops { region := none } _ hmem' with habs | ⟨op, hop, heq⟩
    · simp at habs
    · have := hid op hop
      rw [heq]
      push_neg
      exact ⟨this.2, this.1⟩
  refine ⟨_, writeTo_eq_none hreg htne' hsorted' hch', ?_⟩
  rw [htags]
  exact next_parses_flat ts _ hch htne hwfts hnzts h32 hlenlt helt hidlast

end Rpm

namespace Rpm

theorem dropLast_append_singleton {α : Type} (l : List α) (a : α) :
    (l ++ [a]).dropLast = l := by
  simp

theorem next_parses_region (tags : List Tag) (e rid : Nat)
    (hch : Chained 0 tags e)
    (hwf : ∀ t ∈ tags, TagWF t) (hnz : ∀ t ∈ tags, t.data.len ≠ 0)
    (h32 : ∀ t ∈ tags, THin32 t.th) (hlen : tags.length + 1 < M32)
    (he : e + 16 < M32)
    (hrid : rid = HEADER_SIGNATURES ∨ rid = HEADER_IMMUTABLE) :
    next (rpmHeaderMagic ++ be32 ((tags.length % M32 + 1) % M32) ++ be32 (e + 16)
        ++ encodeTagH ⟨rid, 7, e, 16⟩
        ++ (tags.map (fun t => encodeTagH t.th)).flatten
        ++ dataBytes 0 tags ++ encodeTagH (regionBackPtr rid tags.length)) =
      .ok { count := tags.length + 1, length := e + 16, off := e,
            region := some rid, tags := tags } := by
  have hM : M32 = 4294967296 := rfl
  have hridlt : rid < M32 := by
    rcases hrid with rfl | rfl <;> decide
  set rTH : TagH := ⟨rid, 7, e, 16⟩ with hrTH
  set rData : List Nat := encodeTagH (regionBackPtr rid tags.length) with hrData
  set rtag : Tag := ⟨rTH, .bin rData⟩ with hrtag
  have hrdlen : rData.length = 16 := encodeTagH_length _
  have hrtlen : rtag.data.len = 16 := by
    rw [hrtag]
    simp [TagData.len, hrdlen]
  have hwfr : TagWF rtag := by
    rw [hrtag]
    exact ⟨rfl, hrdlen.symm⟩
  have hchr : Chained e [rtag] (e + 16) := by
    refine Chained.cons ?_ ?_
    · show rTH.offset = alignUp e (alignSz 7)
      rw [show alignSz 7 = 1 from rfl, alignUp_one]
    · have hx : rtag.th.offset + rtag.data.len = e + 16 := by
        rw [hrtlen]
      rw [hx]
      exact Chained.nil _
  have hch2 : Chained 0 (tags ++ [rtag]) (e + 16) := chained_append hch hchr
  have hml : be32 ((tags.length % M32 + 1) % M32) = be32 (tags.length + 1) := by
    rw [Nat.mod_eq_of_lt (show tags.length < M32 by omega),
      Nat.mod_eq_of_lt (show tags.length + 1 < M32 by omega)]
  rw [next, rAlign_zero]
  simp only [Except.bind]
  rw [hml, List.append_assoc, List.append_assoc, List.append_assoc]
  rw [readPre_ok 0 (tags.length + 1) (e + 16) _]
  simp only [Except.bind]
  rw [Nat.mod_eq_of_lt (by omega), Nat.mod_eq_of_lt (by omega)]
  have hthb : (tags.map (fun t => encodeTagH t.th)).flatten =
      ((tags.map Tag.th).map encodeTagH).flatten := by
    rw [List.map_map]
    rfl
  have hin : encodeTagH rTH ++ ((tags.map (fun t => encodeTagH t.th)).flatten ++
      (dataBytes 0 tags ++ rData)) =
      ((rTH :: tags.map Tag.th).map encodeTagH).flatten ++
        (dataBytes 0 tags ++ rData) := by
    rw [hthb]
    simp [List.append_assoc]
  rw [hin]
  have h32' : ∀ th ∈ rTH :: tags.map Tag.th, THin32 th := by
    intro th hth
    rcases List.mem_cons.mp hth with rfl | hth'
    · refine ⟨hridlt, ?_, ?_, ?_⟩
      · show (7 : Nat) < M32
        omega
      · show e < M32
        omega
      · show (16 : Nat) < M32
        omega
    · obtain ⟨t, ht, rfl⟩ := List.mem_map.mp hth'
      exact h32 t ht
  have hoffs : ∀ t ∈ tags, t.th.offset < e := by
    intro t ht
    have hb := (chained_bounds hch).2 t ht
    have := hnz t ht
    omega
  have hoffle : ∀ th ∈ rTH :: tags.map Tag.th, th.offset ≤ e + 16 := by
    intro th hth
    rcases List.mem_cons.mp hth with rfl | hth'
    · show e ≤ e + 16
      omega
    · obtain ⟨t, ht, rfl⟩ := List.mem_map.mp hth'
      have := hoffs t ht
      omega
  have hrt := readTagHs_exact (rTH :: tags.map Tag.th) (e + 16) 16
    (dataBytes 0 tags ++ rData) h32' hoffle
  rw [List.length_cons, List.length_map] at hrt
  rw [hrt]
  simp only [Except.bind]
  rw [if_neg (by simp)]
  have hsorted : sortTHs (rTH :: tags.map Tag.th) = tags.map Tag.th ++ [rTH] := by
    rw [sortTHs]
    have hs1 : sortTHs (tags.map Tag.th) = tags.map Tag.th := by
      refine sortTHs_id _ ?_
      refine (List.chain'_map Tag.th).mpr ?_
      exact (chained_chain_le hch).imp fun a b hab =>
        le_trans (Nat.le_add_right _ _) hab
    rw [hs1]
    refine insertTH_append_end rTH _ ?_
    intro u hu
    obtain ⟨t, ht, rfl⟩ := List.mem_map.mp hu
    exact hoffs t ht
  rw [hsorted]
  have hdata : dataBytes 0 tags ++ rData = rdBytes (e + 16) (tags ++ [rtag]) ++ [] := by
    rw [List.append_nil]
    have h1 : dataBytes 0 (tags ++ [rtag]) = rdBytes (e + 16) (tags ++ [rtag]) := by
      rw [dataBytes_chained hch2, chained_headOffE_zero hch2]
      simp
    rw [← h1, dataBytes_append [rtag] hch]
    have h2 : dataBytes e [rtag] = rData := by
      simp [dataBytes, hrtag, TagData.bytesOut]
    rw [h2]
  rw [hdata]
  have hwf2 : ∀ t ∈ tags ++ [rtag], TagWF t := by
    intro t ht
    rcases List.mem_append.mp ht with ht' | ht'
    · exact hwf t ht'
    · rcases List.mem_singleton.mp ht' with rfl
      exact hwfr
  have hnz2 : ∀ t ∈ tags ++ [rtag], t.data.len ≠ 0 := by
    intro t ht
    rcases List.mem_append.mp ht with ht' | ht'
    · exact hnz t ht'
    · rcases List.mem_singleton.mp ht' with rfl
      rw [hrtlen]
      omega
  have hbase : (16 + 16 * (tags.length + 1)) % 8 = 0 := by omega
  have hrd := readAllData_exact hch2 (16 + 16 * (tags.length + 1)) [] hbase hwf2 hnz2
  rw [chained_headOffE_zero hch2, List.map_append] at hrd
  simp only [Nat.add_zero] at hrd
  have hmaps : List.map Tag.th [rtag] = [rTH] := by
    rw [hrtag]
    rfl
  rw [hmaps] at hrd
  rw [hrd]
  simp only []
  have hlast : (tags ++ [rtag]).getLastD ⟨⟨0, 0, 0, 0⟩, .bin []⟩ = rtag :=
    getLastD_append_singleton _ _ _
  rw [hlast]
  have hcond : rtag.th.tag = HEADER_IMMUTABLE ∨ rtag.th.tag = HEADER_SIGNATURES := by
    rcases hrid with h | h
    · exact Or.inr (by rw [hrtag, hrTH]; exact h)
    · exact Or.inl (by rw [hrtag, hrTH]; exact h)
  rw [if_pos hcond]
  rw [dropLast_append_singleton]

end Rpm

namespace Rpm

/-- C2 (amended): for every nonempty header carrying region marker 62 or
63 whose add* calls store nonempty NUL-free values of total encoded size
at most 2^28, serialization succeeds; the last 16 bytes of the output,
decoded as a tag-header, are exactly (rid, BIN, -(N+1)*16 mod 2^32, 16)
where N is the number of real tags; the region tag's Offset (the data-end
cursor) is strictly greater than every real tag's Offset, so it is last in
Offset order; and `Reader.Next` parses the bytes back, extracting the
region id and returning exactly the real tags. -/
theorem c2_amended_region_backptr (rid : Nat) (ops : List AddOp) (hne : ops ≠ [])
    (hgood : ∀ op ∈ ops, OpGood op)
    (hrid : rid = HEADER_SIGNATURES ∨ rid = HEADER_IMMUTABLE)
    (hsz : opsSize ops ≤ 2 ^ 28) :
    ∃ bs, (buildHeader (some rid) ops).writeTo = .ok bs ∧
      decodeTagH (bs.drop (bs.length - 16)) =
        ⟨rid, 7, uneg32 (16 * ((buildHeader (some rid) ops).tags.length + 1)), 16⟩ ∧
      (∀ t ∈ (buildHeader (some rid) ops).tags,
        t.th.offset < (buildHeader (some rid) ops).off) ∧
      next bs = .ok { count := (buildHeader (some rid) ops).tags.length + 1,
                      length := (buildHeader (some rid) ops).off + 16,
                      off := (buildHeader (some rid) ops).off,
                      region := some rid,
                      tags := (buildHeader (some rid) ops).tags } := by
  have hM : M32 = 4294967296 := rfl
  have hridm : rid % M32 = rid := by
    rcases hrid with rfl | rfl <;> rfl
  obtain ⟨ts, h1, h2, h3, h4, h5, h6, h7, h8⟩ :=
    applyOps_spec ops { region := some (rid % M32) } (by simpa using hsz)
  have hbh : buildHeader (some rid) ops =
      ops.foldl Header.applyOp ({ region := some (rid % M32) } : Header) := rfl
  rw [hbh]
  have htags : (ops.foldl Header.applyOp
      ({ region := some (rid % M32) } : Header)).tags = ts := by
    simpa using h1
  have hch : Chained 0 ts
      (ops.foldl Header.applyOp ({ region := some (rid % M32) } : Header)).off := by
    simpa using h5
  have hoffle : (ops.foldl Header.applyOp
      ({ region := some (rid % M32) } : Header)).off ≤ opsSize ops := by
    simpa using h3
  have htne : ts ≠ [] := by
    intro he
    rw [he] at h4
    exact hne (List.length_eq_zero.mp h4.symm)
  have hchle : List.Chain' (fun a b => a.th.offset ≤ b.th.offset) ts :=
    (chained_chain_le hch).imp fun a b hab => le_trans (Nat.le_add_right _ _) hab
  have hsorted : sortTags ts = ts := sortTags_id ts hchle
  have hch' : Chained 0
      (ops.foldl Header.applyOp ({ region := some (rid % M32) } : Header)).tags
      (ops.foldl Header.applyOp ({ region := some (rid % M32) } : Header)).off :=
    htags ▸ hch
  have htne' : (ops.foldl Header.applyOp
      ({ region := some (rid % M32) } : Header)).tags ≠ [] := by
    rw [htags]; exact htne
  have hsorted' : sortTags (ops.foldl Header.applyOp
      ({ region := some (rid % M32) } : Header)).tags =
      (ops.foldl Header.applyOp ({ region := some (rid % M32) } : Header)).tags := by
    rw [htags]; exact hsorted
  have hreg : (ops.foldl Header.applyOp
      ({ region := some (rid % M32) } : Header)).region = some rid := by
    have h2' : (ops.foldl Header.applyOp
        ({ region := some (rid % M32) } : Header)).region = some (rid % M32) := h2
    rw [h2', hridm]
  have hoff16 : (ops.foldl Header.applyOp
      ({ region := some (rid % M32) } : Header)).off + 16 < M32 := by omega
  have hwfts : ∀ t ∈ ts, TagWF t := h7 (fun op hop => (hgood op hop).2)
  have hnzts : ∀ t ∈ ts, t.data.len ≠ 0 := h8 (fun op hop => (hgood op hop).1)
  have h32 : ∀ t ∈ ts, THin32 t.th := by
    intro t ht
    have hb := (chained_bounds hch).2 t ht
    have hty := tagWF_typ_le (hwfts t ht)
    have hcl := count_le_len (hwfts t ht)
    exact ⟨h6 t ht, by omega, by omega, by omega⟩
  have hlenlt : ts.length + 1 < M32 := by
    have := opsSize_ge ops
    omega
  have hridlt : rid < M32 := by
    rcases hrid with rfl | rfl <;> decide
  have hwt := writeTo_eq_some hreg htne' hsorted' hch' hoff16
  have hlast16 : ∀ (pre B : List Nat), B.length = 16 →
      (pre ++ B).drop ((pre ++ B).length - 16) = B := by
    intro pre B hB
    rw [List.length_append, hB, show pre.length + 16 - 16 = pre.length by omega,
      List.drop_left]
  refine ⟨_, hwt, ?_, ?_, ?_⟩
  · rw [htags, hlast16 _ _ (encodeTagH_length _)]
    refine decodeTagH_encodeTagH _ ⟨hridlt, ?_, ?_, ?_⟩
    · show (7 : Nat) < M32
      omega
    · show (M32 - 16 * (ts.length + 1) % M32) % M32 < M32
      exact Nat.mod_lt _ (by omega)
    · show (16 : Nat) < M32
      omega
  · rw [htags]
    intro t ht
    have hb := (chained_bounds hch).2 t ht
    have := hnzts t ht
    omega
  · rw [htags]
    exact next_parses_region ts _ rid hch hwfts hnzts h32 hlenlt (by omega) hrid

end Rpm

namespace Rpm

/-- Witness for C1 at a concrete header: a STRING tag and an INT32 tag
round-trip through `writeTo` and `next`. -/
theorem c1_amended_witness :
    ∃ bs, (buildHeader none [AddOp.str 1 [102, 111, 111],
        AddOp.int32 2 [5]]).writeTo = .ok bs ∧
      next bs = .ok { count := (buildHeader none [AddOp.str 1 [102, 111, 111],
                        AddOp.int32 2 [5]]).tags.length,
                      length := (buildHeader none [AddOp.str 1 [102, 111, 111],
                        AddOp.int32 2 [5]]).off,
                      off := (buildHeader none [AddOp.str 1 [102, 111, 111],
                        AddOp.int32 2 [5]]).off,
                      region := none,
                      tags := (buildHeader none [AddOp.str 1 [102, 111, 111],
                        AddOp.int32 2 [5]]).tags } :=
  c1_amended_roundtrip [AddOp.str 1 [102, 111, 111], AddOp.int32 2 [5]]
    (by decide) (by decide) (by decide) (by decide)

/-- Witness for C2 at a concrete header: a BIN tag under region marker 63
serializes with the two's-complement back-pointer and parses back. -/
theorem c2_amended_witness :
    ∃ bs, (buildHeader (some 63) [AddOp.bin 10 [1, 2, 3]]).writeTo = .ok bs ∧
      decodeTagH (bs.drop (bs.length - 16)) =
        ⟨63, 7, uneg32 (16 * ((buildHeader (some 63)
          [AddOp.bin 10 [1, 2, 3]]).tags.length + 1)), 16⟩ ∧
      (∀ t ∈ (buildHeader (some 63) [AddOp.bin 10 [1, 2, 3]]).tags,
        t.th.offset < (buildHeader (some 63) [AddOp.bin 10 [1, 2, 3]]).off) ∧
      next bs = .ok { count := (buildHeader (some 63)
                        [AddOp.bin 10 [1, 2, 3]]).tags.length + 1,
                      length := (buildHeader (some 63)
                        [AddOp.bin 10 [1, 2, 3]]).off + 16,
                      off := (buildHeader (some 63) [AddOp.bin 10 [1, 2, 3]]).off,
                      region := some 63,
                      tags := (buildHeader (some 63) [AddOp.bin 10 [1, 2, 3]]).tags } :=
  c2_amended_region_backptr 63 [AddOp.bin 10 [1, 2, 3]]
    (by decide) (by decide) (Or.inr rfl) (by decide)

end Rpm
